import Mathlib

/-!
Verification of the quadtree implementation in src/quadtree.js.

The program is a spatial index: a recursive Node structure with insert,
divide, retrieve and clear, wrapped by a QUAD facade that injects default
tuning parameters.  Coordinates are JS numbers; every arithmetic operation
the program performs on them (addition, halving, comparison) is exact on
the rationals, so coordinates are modelled as ℚ.

A JS Node's nodes array is either empty (leaf) or holds exactly the four
children pushed by divide, in the fixed order top-left, top-right,
bottom-left, bottom-right; the embedding bakes that shape into the Node
type with two constructors.  The insert/divide recursion (divide re-inserts
the node's items into the node it just gave children) is expressed with a
fuel parameter; every theorem about insertion is proved for all fuel
values, and the API-level Node.insert supplies a budget that the concrete
evaluations below never exhaust.
-/

/-- An item: any value with numeric x, y (top-left corner), w and h fields
(src/quadtree.js usage contract).  The tree stores items unmodified. -/
structure Item where
  x : ℚ
  y : ℚ
  w : ℚ
  h : ℚ
deriving DecidableEq, Repr

/-- Direction constant (src/quadtree.js:31). -/
def TOP_LEFT : Nat := 0

/-- Direction constant (src/quadtree.js:32). -/
def TOP_RIGHT : Nat := 1

/-- Direction constant (src/quadtree.js:33). -/
def BOTTOM_LEFT : Nat := 2

/-- Direction constant (src/quadtree.js:34). -/
def BOTTOM_RIGHT : Nat := 3

/-- Direction constant (src/quadtree.js:35). -/
def PARENT : Nat := 4

/-- A tree node (src/quadtree.js:41-56): bounding box x, y, w, h, its depth,
the copied maxChildren/maxDepth parameters, the items held directly, and the
nodes array, which is empty (leaf) or exactly the four quadrant children
top-left, top-right, bottom-left, bottom-right (inner). -/
inductive Node where
  | leaf (x y w h : ℚ) (depth maxChildren maxDepth : Nat) (items : List Item) : Node
  | inner (x y w h : ℚ) (depth maxChildren maxDepth : Nat) (items : List Item)
      (tl tr bl br : Node) : Node
deriving DecidableEq

namespace Node

/-- The x field of a node. -/
def x : Node → ℚ
  | leaf v _ _ _ _ _ _ _ => v
  | inner v _ _ _ _ _ _ _ _ _ _ _ => v

/-- The y field of a node. -/
def y : Node → ℚ
  | leaf _ v _ _ _ _ _ _ => v
  | inner _ v _ _ _ _ _ _ _ _ _ _ => v

/-- The w field of a node. -/
def w : Node → ℚ
  | leaf _ _ v _ _ _ _ _ => v
  | inner _ _ v _ _ _ _ _ _ _ _ _ => v

/-- The h field of a node. -/
def h : Node → ℚ
  | leaf _ _ _ v _ _ _ _ => v
  | inner _ _ _ v _ _ _ _ _ _ _ _ => v

/-- The depth field of a node. -/
def depth : Node → Nat
  | leaf _ _ _ _ v _ _ _ => v
  | inner _ _ _ _ v _ _ _ _ _ _ _ => v

/-- The maxChildren field of a node. -/
def maxChildren : Node → Nat
  | leaf _ _ _ _ _ v _ _ => v
  | inner _ _ _ _ _ v _ _ _ _ _ _ => v

/-- The maxDepth field of a node. -/
def maxDepth : Node → Nat
  | leaf _ _ _ _ _ _ v _ => v
  | inner _ _ _ _ _ _ v _ _ _ _ _ => v

/-- The items array of a node. -/
def items : Node → List Item
  | leaf _ _ _ _ _ _ _ v => v
  | inner _ _ _ _ _ _ _ v _ _ _ _ => v

/-- Whether the node's nodes array is empty (JS: this.nodes.length is 0). -/
def isLeaf : Node → Bool
  | leaf _ _ _ _ _ _ _ _ => true
  | inner _ _ _ _ _ _ _ _ _ _ _ _ => false

/-- The node with its items array replaced (everything else unchanged). -/
def withItems : Node → List Item → Node
  | leaf a b c d e f g _, l => leaf a b c d e f g l
  | inner a b c d e f g _ tl tr bl br, l => inner a b c d e f g l tl tr bl br

/-- getNodes (src/quadtree.js:207-209): the children, or none for a leaf
(the source returns false). Diagnostic accessor, unused by the algorithms. -/
def getNodes : Node → Option (List Node)
  | leaf _ _ _ _ _ _ _ _ => none
  | inner _ _ _ _ _ _ _ _ tl tr bl br => some [tl, tr, bl, br]

/-- findInsertNode (src/quadtree.js:112-136): the quadrant the item fits
entirely inside, or PARENT when it straddles a midline. -/
def findInsertNode (n : Node) (item : Item) : Nat :=
  if item.x + item.w < n.x + n.w / 2 then
    if item.y + item.h < n.y + n.h / 2 then TOP_LEFT
    else if item.y ≥ n.y + n.h / 2 then BOTTOM_LEFT
    else PARENT
  else if item.x ≥ n.x + n.w / 2 then
    if item.y + item.h < n.y + n.h / 2 then TOP_RIGHT
    else if item.y ≥ n.y + n.h / 2 then BOTTOM_RIGHT
    else PARENT
  else PARENT

/-- findOverlappingNodes (src/quadtree.js:142-161): the directions whose
quadrant the item overlaps, listed in the order the source fires its
callback: top-left, bottom-left, top-right, bottom-right. -/
def findOverlappingNodes (n : Node) (item : Item) : List Nat :=
  (if item.x < n.x + n.w / 2 then
      (if item.y < n.y + n.h / 2 then [TOP_LEFT] else []) ++
        (if item.y + item.h ≥ n.y + n.h / 2 then [BOTTOM_LEFT] else [])
    else []) ++
    (if item.x + item.w ≥ n.x + n.w / 2 then
      (if item.y < n.y + n.h / 2 then [TOP_RIGHT] else []) ++
        (if item.y + item.h ≥ n.y + n.h / 2 then [BOTTOM_RIGHT] else [])
    else [])

/-- retrieve (src/quadtree.js:61-76) with the callback's invocations
collected into a list: the node's own items, then, if it has subnodes, the
results of this.nodes[dir].retrieve for each dir findOverlappingNodes
reports, in callback order. -/
def retrieveList : Node → Item → List Item
  | leaf _ _ _ _ _ _ _ items, _ => items
  | inner a b c d e f g items tl tr bl br, item =>
      items ++
        ((inner a b c d e f g items tl tr bl br).findOverlappingNodes item).flatMap
          (fun dir =>
            if dir = TOP_LEFT then tl.retrieveList item
            else if dir = TOP_RIGHT then tr.retrieveList item
            else if dir = BOTTOM_LEFT then bl.retrieveList item
            else if dir = BOTTOM_RIGHT then br.retrieveList item
            else [])

/-- insert (src/quadtree.js:89-107) with divide (src/quadtree.js:168-189)
inlined at its single call site.  An inner node routes the item to the child
findInsertNode picks, or pushes it onto its own items on PARENT.  A leaf
pushes the item; if the count then exceeds maxChildren and depth has not
reached maxDepth, it becomes an inner node with four fresh quadrant children
at depth+1 and re-inserts its items in order.  The fuel argument makes that
re-insertion recursion total; the fuel-0 case stores the item at the current
node and is never reached with the budget Node.insert supplies on trees the
API builds. -/
def insertF : Nat → Node → Item → Node
  | 0, n, item => n.withItems (n.items ++ [item])
  | fuel + 1, n, item =>
    match n with
    | inner a b c d e f g items tl tr bl br =>
      let i := (inner a b c d e f g items tl tr bl br).findInsertNode item
      if i = TOP_LEFT then inner a b c d e f g items (insertF fuel tl item) tr bl br
      else if i = TOP_RIGHT then inner a b c d e f g items tl (insertF fuel tr item) bl br
      else if i = BOTTOM_LEFT then inner a b c d e f g items tl tr (insertF fuel bl item) br
      else if i = BOTTOM_RIGHT then inner a b c d e f g items tl tr bl (insertF fuel br item)
      else inner a b c d e f g (items ++ [item]) tl tr bl br
    | leaf a b c d e f g items =>
      let items2 := items ++ [item]
      if items2.length > f ∧ e < g then
        items2.foldl (fun acc el => insertF fuel acc el)
          (inner a b c d e f g []
            (leaf a b (c / 2) (d / 2) (e + 1) f g [])
            (leaf (a + c / 2) b (c / 2) (d / 2) (e + 1) f g [])
            (leaf a (b + d / 2) (c / 2) (d / 2) (e + 1) f g [])
            (leaf (a + c / 2) (b + d / 2) (c / 2) (d / 2) (e + 1) f g []))
      else leaf a b c d e f g items2

/-- The fuel Node.insert hands to insertF: inserting into a tree the API
built descends at most maxDepth existing levels and then divides through at
most maxDepth further levels, at most two fuel units per level. -/
def insertFuel (n : Node) : Nat := 2 * n.maxDepth + 2

/-- The API-level insert of a single item. -/
def insert (n : Node) (item : Item) : Node := insertF n.insertFuel n item

/-- clear (src/quadtree.js:194-198): clears children recursively, then
empties the items and nodes arrays.  The recursive child clears are
unobservable once the nodes array is emptied, so the node reverts to the
empty leaf with the same geometry and parameters. -/
def clear : Node → Node
  | leaf a b c d e f g _ => leaf a b c d e f g []
  | inner a b c d e f g _ _ _ _ _ => leaf a b c d e f g []

/-- All items stored anywhere in the subtree, own items first, then the
children subtrees in nodes-array order. -/
def flattenItems : Node → List Item
  | leaf _ _ _ _ _ _ _ items => items
  | inner _ _ _ _ _ _ _ items tl tr bl br =>
      items ++ tl.flattenItems ++ tr.flattenItems ++ bl.flattenItems ++ br.flattenItems

/-- Every node of the subtree, the node itself first. -/
def allNodes : Node → List Node
  | leaf a b c d e f g items => [leaf a b c d e f g items]
  | inner a b c d e f g items tl tr bl br =>
      inner a b c d e f g items tl tr bl br ::
        (tl.allNodes ++ tr.allNodes ++ bl.allNodes ++ br.allNodes)

/-- The geometric invariant divide establishes: an inner node's children
cover its four quadrants at half width and half height, recursively. -/
def quadsGeom : Node → Bool
  | leaf _ _ _ _ _ _ _ _ => true
  | inner a b c d _ _ _ _ tl tr bl br =>
      decide (tl.x = a ∧ tl.y = b ∧ tl.w = c / 2 ∧ tl.h = d / 2) &&
      decide (tr.x = a + c / 2 ∧ tr.y = b ∧ tr.w = c / 2 ∧ tr.h = d / 2) &&
      decide (bl.x = a ∧ bl.y = b + d / 2 ∧ bl.w = c / 2 ∧ bl.h = d / 2) &&
      decide (br.x = a + c / 2 ∧ br.y = b + d / 2 ∧ br.w = c / 2 ∧ br.h = d / 2) &&
      tl.quadsGeom && tr.quadsGeom && bl.quadsGeom && br.quadsGeom

/-- The depth bookkeeping invariant insert maintains: a node's depth never
exceeds its maxDepth, and children sit one level deeper with the same
maxChildren/maxDepth parameters, recursively. -/
def depthOk : Node → Bool
  | leaf _ _ _ _ e _ g _ => decide (e ≤ g)
  | inner _ _ _ _ e f g _ tl tr bl br =>
      decide (e ≤ g) &&
      (decide (tl.depth = e + 1 ∧ tl.maxChildren = f ∧ tl.maxDepth = g) && tl.depthOk) &&
      (decide (tr.depth = e + 1 ∧ tr.maxChildren = f ∧ tr.maxDepth = g) && tr.depthOk) &&
      (decide (bl.depth = e + 1 ∧ bl.maxChildren = f ∧ bl.maxDepth = g) && bl.depthOk) &&
      (decide (br.depth = e + 1 ∧ br.maxChildren = f ∧ br.maxDepth = g) && br.depthOk)

/-- Explicit-state rendering of retrieve (src/quadtree.js:61-76): the pair
holds the sequence of callback invocations and the state of the subtree
after the call.  The method performs no writes of its own, so each visited
child's post-call state is threaded back into its slot in the nodes array
and everything else is passed through. -/
def retrieveSt : Node → Item → List Item × Node
  | leaf a b c d e f g items, _ => (items, leaf a b c d e f g items)
  | inner a b c d e f g items tl tr bl br, item =>
      let ptl := if item.x < a + c / 2 ∧ item.y < b + d / 2 then
        tl.retrieveSt item else ([], tl)
      let pbl := if item.x < a + c / 2 ∧ item.y + item.h ≥ b + d / 2 then
        bl.retrieveSt item else ([], bl)
      let ptr := if item.x + item.w ≥ a + c / 2 ∧ item.y < b + d / 2 then
        tr.retrieveSt item else ([], tr)
      let pbr := if item.x + item.w ≥ a + c / 2 ∧ item.y + item.h ≥ b + d / 2 then
        br.retrieveSt item else ([], br)
      (items ++ ptl.1 ++ pbl.1 ++ ptr.1 ++ pbr.1,
        inner a b c d e f g items ptl.2 ptr.2 pbl.2 pbr.2)

/-- Modelled from the spec sentence behind claim C3: own items first, then
each overlapping child subtree's results in the fixed quadrant order
top-left, top-right, bottom-left, bottom-right. -/
def retrieveListSpec : Node → Item → List Item
  | leaf _ _ _ _ _ _ _ items, _ => items
  | inner a b c d _ _ _ items tl tr bl br, item =>
      items ++
        (if item.x < a + c / 2 ∧ item.y < b + d / 2 then
          tl.retrieveListSpec item else []) ++
        (if item.x + item.w ≥ a + c / 2 ∧ item.y < b + d / 2 then
          tr.retrieveListSpec item else []) ++
        (if item.x < a + c / 2 ∧ item.y + item.h ≥ b + d / 2 then
          bl.retrieveListSpec item else []) ++
        (if item.x + item.w ≥ a + c / 2 ∧ item.y + item.h ≥ b + d / 2 then
          br.retrieveListSpec item else [])

/-- Modelled from the amended claim C3: own items first, then each
overlapping child subtree's results in the order top-left, bottom-left,
top-right, bottom-right (the order the callback of findOverlappingNodes
actually fires). -/
def retrieveListOrd : Node → Item → List Item
  | leaf _ _ _ _ _ _ _ items, _ => items
  | inner a b c d _ _ _ items tl tr bl br, item =>
      items ++
        (if item.x < a + c / 2 ∧ item.y < b + d / 2 then
          tl.retrieveListOrd item else []) ++
        (if item.x < a + c / 2 ∧ item.y + item.h ≥ b + d / 2 then
          bl.retrieveListOrd item else []) ++
        (if item.x + item.w ≥ a + c / 2 ∧ item.y < b + d / 2 then
          tr.retrieveListOrd item else []) ++
        (if item.x + item.w ≥ a + c / 2 ∧ item.y + item.h ≥ b + d / 2 then
          br.retrieveListOrd item else [])

end Node

/-- The item's bounding box lies inside the node's bounding box. -/
def Item.insideBox (item : Item) (n : Node) : Prop :=
  n.x ≤ item.x ∧ n.y ≤ item.y ∧
    item.x + item.w ≤ n.x + n.w ∧ item.y + item.h ≤ n.y + n.h

instance (item : Item) (n : Node) : Decidable (item.insideBox n) :=
  inferInstanceAs (Decidable (_ ∧ _ ∧ _ ∧ _))

/-- The query item's bounding box covers the node's bounding box. -/
def coversBox (q : Item) (n : Node) : Prop :=
  q.x ≤ n.x ∧ q.y ≤ n.y ∧ n.x + n.w ≤ q.x + q.w ∧ n.y + n.h ≤ q.y + q.h

instance (q : Item) (n : Node) : Decidable (coversBox q n) :=
  inferInstanceAs (Decidable (_ ∧ _ ∧ _ ∧ _))

/-- The constructor argument object (src/quadtree.js:9-19): mandatory
x, y, w, h and optional maxChildren/maxDepth.  none models an absent field;
some 0 is the other falsy value a Nat-valued field can take. -/
structure Args where
  x : ℚ
  y : ℚ
  w : ℚ
  h : ℚ
  maxChildren : Option Nat
  maxDepth : Option Nat
deriving DecidableEq

/-- JS v || d on an optional numeric field: absent or 0 gives the default. -/
def orDefault : Option Nat → Nat → Nat
  | none, d => d
  | some v, d => if v = 0 then d else v

/-- The QUAD facade (src/quadtree.js:212-239): owns the root node. -/
structure QUAD where
  root : Node
deriving DecidableEq

/-- new QUAD(args) (src/quadtree.js:213-220).  The constructor assigns the
defaulted maxChildren/maxDepth back into the caller's args object (args
aliases the incoming object), so the embedding returns the constructed tree
together with the args object as the caller sees it afterwards. -/
def quadInit (args : Args) : QUAD × Args :=
  let mc := orDefault args.maxChildren 2
  let md := orDefault args.maxDepth 4
  (⟨Node.leaf args.x args.y args.w args.h 0 mc md []⟩,
    ⟨args.x, args.y, args.w, args.h, some mc, some md⟩)

/-- QUAD.insert on a single (non-array) item (src/quadtree.js:221-230). -/
def QUAD.insertOne (q : QUAD) (item : Item) : QUAD := ⟨q.root.insert item⟩

/-- QUAD.insert on an array (src/quadtree.js:221-230): this.root.insert on
each element in order. -/
def QUAD.insertList (q : QUAD) (items : List Item) : QUAD :=
  ⟨items.foldl Node.insert q.root⟩

/-- QUAD.retrieve (src/quadtree.js:232-234) with the callback's invocations
collected into a list. -/
def QUAD.retrieve (q : QUAD) (selector : Item) : List Item :=
  q.root.retrieveList selector

/-- QUAD.clear (src/quadtree.js:236-238). -/
def QUAD.clear (q : QUAD) : QUAD := ⟨q.root.clear⟩

/-! ### Projection evaluation lemmas -/

/-- Field evaluation on the leaf constructor. -/
@[simp] theorem x_leaf (a b c d : ℚ) (e f g : Nat) (l : List Item) :
    (Node.leaf a b c d e f g l).x = a := rfl

/-- Field evaluation on the inner constructor. -/
@[simp] theorem x_inner (a b c d : ℚ) (e f g : Nat) (l : List Item)
    (tl tr bl br : Node) : (Node.inner a b c d e f g l tl tr bl br).x = a := rfl

/-- Field evaluation on the leaf constructor. -/
@[simp] theorem y_leaf (a b c d : ℚ) (e f g : Nat) (l : List Item) :
    (Node.leaf a b c d e f g l).y = b := rfl

/-- Field evaluation on the inner constructor. -/
@[simp] theorem y_inner (a b c d : ℚ) (e f g : Nat) (l : List Item)
    (tl tr bl br : Node) : (Node.inner a b c d e f g l tl tr bl br).y = b := rfl

/-- Field evaluation on the leaf constructor. -/
@[simp] theorem w_leaf (a b c d : ℚ) (e f g : Nat) (l : List Item) :
    (Node.leaf a b c d e f g l).w = c := rfl

/-- Field evaluation on the inner constructor. -/
@[simp] theorem w_inner (a b c d : ℚ) (e f g : Nat) (l : List Item)
    (tl tr bl br : Node) : (Node.inner a b c d e f g l tl tr bl br).w = c := rfl

/-- Field evaluation on the leaf constructor. -/
@[simp] theorem h_leaf (a b c d : ℚ) (e f g : Nat) (l : List Item) :
    (Node.leaf a b c d e f g l).h = d := rfl

/-- Field evaluation on the inner constructor. -/
@[simp] theorem h_inner (a b c d : ℚ) (e f g : Nat) (l : List Item)
    (tl tr bl br : Node) : (Node.inner a b c d e f g l tl tr bl br).h = d := rfl

/-- Field evaluation on the leaf constructor. -/
@[simp] theorem depth_leaf (a b c d : ℚ) (e f g : Nat) (l : List Item) :
    (Node.leaf a b c d e f g l).depth = e := rfl

/-- Field evaluation on the inner constructor. -/
@[simp] theorem depth_inner (a b c d : ℚ) (e f g : Nat) (l : List Item)
    (tl tr bl br : Node) : (Node.inner a b c d e f g l tl tr bl br).depth = e := rfl

/-- Field evaluation on the leaf constructor. -/
@[simp] theorem maxChildren_leaf (a b c d : ℚ) (e f g : Nat) (l : List Item) :
    (Node.leaf a b c d e f g l).maxChildren = f := rfl

/-- Field evaluation on the inner constructor. -/
@[simp] theorem maxChildren_inner (a b c d : ℚ) (e f g : Nat) (l : List Item)
    (tl tr bl br : Node) :
    (Node.inner a b c d e f g l tl tr bl br).maxChildren = f := rfl

/-- Field evaluation on the leaf constructor. -/
@[simp] theorem maxDepth_leaf (a b c d : ℚ) (e f g : Nat) (l : List Item) :
    (Node.leaf a b c d e f g l).maxDepth = g := rfl

/-- Field evaluation on the inner constructor. -/
@[simp] theorem maxDepth_inner (a b c d : ℚ) (e f g : Nat) (l : List Item)
    (tl tr bl br : Node) :
    (Node.inner a b c d e f g l tl tr bl br).maxDepth = g := rfl

/-- Field evaluation on the leaf constructor. -/
@[simp] theorem items_leaf (a b c d : ℚ) (e f g : Nat) (l : List Item) :
    (Node.leaf a b c d e f g l).items = l := rfl

/-- Field evaluation on the inner constructor. -/
@[simp] theorem items_inner (a b c d : ℚ) (e f g : Nat) (l : List Item)
    (tl tr bl br : Node) : (Node.inner a b c d e f g l tl tr bl br).items = l := rfl

/-- isLeaf evaluation on the leaf constructor. -/
@[simp] theorem isLeaf_leaf (a b c d : ℚ) (e f g : Nat) (l : List Item) :
    (Node.leaf a b c d e f g l).isLeaf = true := rfl

/-- isLeaf evaluation on the inner constructor. -/
@[simp] theorem isLeaf_inner (a b c d : ℚ) (e f g : Nat) (l : List Item)
    (tl tr bl br : Node) :
    (Node.inner a b c d e f g l tl tr bl br).isLeaf = false := rfl

/-- withItems evaluation on the leaf constructor. -/
@[simp] theorem withItems_leaf (a b c d : ℚ) (e f g : Nat) (l l2 : List Item) :
    (Node.leaf a b c d e f g l).withItems l2 = Node.leaf a b c d e f g l2 := rfl

/-- withItems evaluation on the inner constructor. -/
@[simp] theorem withItems_inner (a b c d : ℚ) (e f g : Nat) (l l2 : List Item)
    (tl tr bl br : Node) :
    (Node.inner a b c d e f g l tl tr bl br).withItems l2 =
      Node.inner a b c d e f g l2 tl tr bl br := rfl

/-! ### Generic helpers -/

/-- A predicate preserved by each step of a fold is preserved by the fold. -/
theorem foldlPres {α β : Type} (g : β → α → β) (P : β → Prop)
    (hstep : ∀ b a, P b → P (g b a)) :
    ∀ (l : List α) (b : β), P b → P (l.foldl g b)
  | [], _, hb => hb
  | a :: l, b, hb => foldlPres g P hstep l (g b a) (hstep b a hb)

/-! ### Insertion preserves the node's own fields -/

/-- insertF only changes the items and nodes arrays: the bounding box, depth
and parameters of the node it is applied to are unchanged. -/
theorem insertF_fields : ∀ (fuel : Nat) (n : Node) (item : Item),
    (Node.insertF fuel n item).x = n.x ∧ (Node.insertF fuel n item).y = n.y ∧
      (Node.insertF fuel n item).w = n.w ∧ (Node.insertF fuel n item).h = n.h ∧
      (Node.insertF fuel n item).depth = n.depth ∧
      (Node.insertF fuel n item).maxChildren = n.maxChildren ∧
      (Node.insertF fuel n item).maxDepth = n.maxDepth := by
  intro fuel
  induction fuel with
  | zero => intro n item; cases n <;> simp [Node.insertF]
  | succ fuel ih =>
    intro n item
    cases n with
    | inner a b c d e f g items tl tr bl br =>
      simp only [Node.insertF]
      split_ifs <;> simp
    | leaf a b c d e f g items =>
      simp only [Node.insertF]
      split_ifs with hc
      · have base :
            ∀ m : Node, m.x = a ∧ m.y = b ∧ m.w = c ∧ m.h = d ∧ m.depth = e ∧
              m.maxChildren = f ∧ m.maxDepth = g →
              ∀ el, (Node.insertF fuel m el).x = a ∧ (Node.insertF fuel m el).y = b ∧
                (Node.insertF fuel m el).w = c ∧ (Node.insertF fuel m el).h = d ∧
                (Node.insertF fuel m el).depth = e ∧
                (Node.insertF fuel m el).maxChildren = f ∧
                (Node.insertF fuel m el).maxDepth = g := by
          intro m hm el
          obtain ⟨h1, h2, h3, h4, h5, h6, h7⟩ := hm
          obtain ⟨g1, g2, g3, g4, g5, g6, g7⟩ := ih m el
          exact ⟨g1.trans h1, g2.trans h2, g3.trans h3, g4.trans h4, g5.trans h5,
            g6.trans h6, g7.trans h7⟩
        have key : ∀ (l : List Item) (m : Node),
            m.x = a ∧ m.y = b ∧ m.w = c ∧ m.h = d ∧ m.depth = e ∧
              m.maxChildren = f ∧ m.maxDepth = g →
            (l.foldl (fun acc el => Node.insertF fuel acc el) m).x = a ∧
              (l.foldl (fun acc el => Node.insertF fuel acc el) m).y = b ∧
              (l.foldl (fun acc el => Node.insertF fuel acc el) m).w = c ∧
              (l.foldl (fun acc el => Node.insertF fuel acc el) m).h = d ∧
              (l.foldl (fun acc el => Node.insertF fuel acc el) m).depth = e ∧
              (l.foldl (fun acc el => Node.insertF fuel acc el) m).maxChildren = f ∧
              (l.foldl (fun acc el => Node.insertF fuel acc el) m).maxDepth = g :=
          fun l m hm =>
            foldlPres (fun acc el => Node.insertF fuel acc el)
              (fun m2 => m2.x = a ∧ m2.y = b ∧ m2.w = c ∧ m2.h = d ∧ m2.depth = e ∧
                m2.maxChildren = f ∧ m2.maxDepth = g)
              (fun m2 el hm2 => base m2 hm2 el) l m hm
        simp only [Node.x, Node.y, Node.w, Node.h, Node.depth, Node.maxChildren,
          Node.maxDepth]
        exact key (items ++ [item]) _ ⟨rfl, rfl, rfl, rfl, rfl, rfl, rfl⟩
      · simp

/-- Field preservation for the API-level insert. -/
theorem insert_fields (n : Node) (item : Item) :
    (n.insert item).x = n.x ∧ (n.insert item).y = n.y ∧
      (n.insert item).w = n.w ∧ (n.insert item).h = n.h ∧
      (n.insert item).depth = n.depth ∧
      (n.insert item).maxChildren = n.maxChildren ∧
      (n.insert item).maxDepth = n.maxDepth :=
  insertF_fields n.insertFuel n item

/-- Inserting into a node that has subnodes leaves it with subnodes. -/
theorem insertF_isLeaf_false (fuel : Nat) (n : Node) (item : Item)
    (hn : n.isLeaf = false) : (Node.insertF fuel n item).isLeaf = false := by
  cases fuel with
  | zero => cases n <;> simp_all [Node.insertF]
  | succ fuel =>
    cases n with
    | leaf a b c d e f g items => simp at hn
    | inner a b c d e f g items tl tr bl br =>
      simp only [Node.insertF]
      split_ifs <;> simp

/-- findInsertNode only reads the bounding box. -/
theorem findInsertNode_congr (n m : Node) (item : Item) (hx : n.x = m.x)
    (hy : n.y = m.y) (hw : n.w = m.w) (hh : n.h = m.h) :
    n.findInsertNode item = m.findInsertNode item := by
  simp only [Node.findInsertNode, hx, hy, hw, hh]

/-- findOverlappingNodes only reads the bounding box. -/
theorem findOverlappingNodes_congr (n m : Node) (item : Item) (hx : n.x = m.x)
    (hy : n.y = m.y) (hw : n.w = m.w) (hh : n.h = m.h) :
    n.findOverlappingNodes item = m.findOverlappingNodes item := by
  simp only [Node.findOverlappingNodes, hx, hy, hw, hh]

/-- The directions findOverlappingNodes reports. -/
theorem overlap_dirs_sub (n : Node) (q : Item) (dir : Nat)
    (hd : dir ∈ n.findOverlappingNodes q) :
    dir = 0 ∨ dir = 1 ∨ dir = 2 ∨ dir = 3 := by
  simp only [Node.findOverlappingNodes, TOP_LEFT, TOP_RIGHT, BOTTOM_LEFT,
    BOTTOM_RIGHT] at hd
  split_ifs at hd <;> simp_all <;> omega

/-- The possible results of findInsertNode. -/
theorem findInsertNode_cases (n : Node) (item : Item) :
    n.findInsertNode item = 0 ∨ n.findInsertNode item = 1 ∨
      n.findInsertNode item = 2 ∨ n.findInsertNode item = 3 ∨
      n.findInsertNode item = 4 := by
  simp only [Node.findInsertNode, TOP_LEFT, TOP_RIGHT, BOTTOM_LEFT, BOTTOM_RIGHT,
    PARENT]
  split_ifs <;> simp

/-- For an item with non-negative width and height that findInsertNode sends
to a quadrant, findOverlappingNodes (queried with the item itself) reports
exactly that quadrant. -/
theorem overlap_singleton (n : Node) (it : Item) (hw : 0 ≤ it.w) (hh : 0 ≤ it.h)
    (hne : n.findInsertNode it ≠ PARENT) :
    n.findOverlappingNodes it = [n.findInsertNode it] := by
  by_cases hL : it.x + it.w < n.x + n.w / 2
  · by_cases hT : it.y + it.h < n.y + n.h / 2
    · have e : n.findInsertNode it = TOP_LEFT := by
        simp [Node.findInsertNode, hL, hT]
      rw [e]
      have c1 : it.x < n.x + n.w / 2 := by linarith
      have c2 : it.y < n.y + n.h / 2 := by linarith
      have c3 : ¬ (it.y + it.h ≥ n.y + n.h / 2) := not_le.mpr hT
      have c4 : ¬ (it.x + it.w ≥ n.x + n.w / 2) := not_le.mpr hL
      simp [Node.findOverlappingNodes, c1, c2, c3, c4]
    · by_cases hB : it.y ≥ n.y + n.h / 2
      · have e : n.findInsertNode it = BOTTOM_LEFT := by
          simp [Node.findInsertNode, hL, hT, hB]
        rw [e]
        have c1 : it.x < n.x + n.w / 2 := by linarith
        have c2 : ¬ (it.y < n.y + n.h / 2) := not_lt.mpr hB
        have c3 : it.y + it.h ≥ n.y + n.h / 2 := by linarith
        have c4 : ¬ (it.x + it.w ≥ n.x + n.w / 2) := not_le.mpr hL
        simp [Node.findOverlappingNodes, c1, c2, c3, c4]
      · exact absurd (by simp [Node.findInsertNode, hL, hT, hB]) hne
  · by_cases hR : it.x ≥ n.x + n.w / 2
    · by_cases hT : it.y + it.h < n.y + n.h / 2
      · have e : n.findInsertNode it = TOP_RIGHT := by
          simp [Node.findInsertNode, hL, hR, hT]
        rw [e]
        have c1 : ¬ (it.x < n.x + n.w / 2) := not_lt.mpr hR
        have c2 : it.y < n.y + n.h / 2 := by linarith
        have c3 : ¬ (it.y + it.h ≥ n.y + n.h / 2) := not_le.mpr hT
        have c4 : it.x + it.w ≥ n.x + n.w / 2 := by linarith
        simp [Node.findOverlappingNodes, c1, c2, c3, c4]
      · by_cases hB : it.y ≥ n.y + n.h / 2
        · have e : n.findInsertNode it = BOTTOM_RIGHT := by
            simp [Node.findInsertNode, hL, hR, hT, hB]
          rw [e]
          have c1 : ¬ (it.x < n.x + n.w / 2) := not_lt.mpr hR
          have c2 : ¬ (it.y < n.y + n.h / 2) := not_lt.mpr hB
          have c3 : it.y + it.h ≥ n.y + n.h / 2 := by linarith
          have c4 : it.x + it.w ≥ n.x + n.w / 2 := by linarith
          simp [Node.findOverlappingNodes, c1, c2, c3, c4]
        · exact absurd (by simp [Node.findInsertNode, hL, hR, hT, hB]) hne
    · exact absurd (by simp [Node.findInsertNode, hL, hR]) hne

/-- Items held directly at a node are always emitted by retrieve. -/
theorem mem_retrieve_of_mem_items (n : Node) (q it : Item) (hit : it ∈ n.items) :
    it ∈ n.retrieveList q := by
  cases n with
  | leaf a b c d e f g items => simpa [Node.retrieveList] using hit
  | inner a b c d e f g items tl tr bl br =>
    simp only [Node.items] at hit
    simp only [Node.retrieveList, List.mem_append]
    exact Or.inl hit

/-! ### Containment: an inserted item is reachable by a query equal to it -/

/-- Folding insertions preserves (and establishes, for the items folded in)
reachability of an item under the query equal to that item. -/
theorem foldl_mem_retrieve (fuel : Nat)
    (hpres : ∀ (n : Node) (o it : Item), 0 ≤ it.w → 0 ≤ it.h →
      it ∈ n.retrieveList it → it ∈ (Node.insertF fuel n o).retrieveList it)
    (hself : ∀ (n : Node) (it : Item), 0 ≤ it.w → 0 ≤ it.h →
      it ∈ (Node.insertF fuel n it).retrieveList it) :
    ∀ (l : List Item) (b : Node) (it : Item), 0 ≤ it.w → 0 ≤ it.h →
      (it ∈ l ∨ it ∈ b.retrieveList it) →
      it ∈ (l.foldl (fun acc el => Node.insertF fuel acc el) b).retrieveList it := by
  intro l
  induction l with
  | nil =>
    intro b it hw hh hmem
    rcases hmem with hmem | hmem
    · simp at hmem
    · simpa using hmem
  | cons a l ih =>
    intro b it hw hh hmem
    simp only [List.foldl_cons]
    rcases hmem with hmem | hmem
    · rcases List.mem_cons.mp hmem with heq | hl
      · subst heq
        exact ih _ it hw hh (Or.inr (hself b it hw hh))
      · exact ih _ it hw hh (Or.inl hl)
    · exact ih _ it hw hh (Or.inr (hpres b a it hw hh hmem))

/-- Main containment induction: inserting any item never loses reachability
of an item under the query equal to itself, and the inserted item itself
becomes reachable under its own query (items of non-negative size). -/
theorem insertF_retrieve_main : ∀ fuel : Nat,
    (∀ (n : Node) (o it : Item), 0 ≤ it.w → 0 ≤ it.h →
      it ∈ n.retrieveList it → it ∈ (Node.insertF fuel n o).retrieveList it) ∧
    (∀ (n : Node) (it : Item), 0 ≤ it.w → 0 ≤ it.h →
      it ∈ (Node.insertF fuel n it).retrieveList it) := by
  intro fuel
  induction fuel with
  | zero =>
    constructor
    · intro n o it hw hh hmem
      cases n with
      | leaf a b c d e f g L =>
        simp only [Node.insertF, Node.retrieveList] at hmem ⊢
        simp only [items_leaf, withItems_leaf, Node.retrieveList]
        exact List.mem_append_left _ hmem
      | inner a b c d e f g L tl tr bl br =>
        simp only [Node.insertF, items_inner, withItems_inner]
        have hdirs : (Node.inner a b c d e f g (L ++ [o]) tl tr bl br).findOverlappingNodes it
            = (Node.inner a b c d e f g L tl tr bl br).findOverlappingNodes it :=
          findOverlappingNodes_congr _ _ _ (by simp) (by simp) (by simp) (by simp)
        simp only [Node.retrieveList, List.mem_append] at hmem ⊢
        rw [hdirs]
        rcases hmem with hmem | hmem
        · exact Or.inl (Or.inl hmem)
        · exact Or.inr hmem
    · intro n it hw hh
      cases n with
      | leaf a b c d e f g L =>
        simp only [Node.insertF, items_leaf, withItems_leaf, Node.retrieveList]
        exact List.mem_append_right _ (by simp)
      | inner a b c d e f g L tl tr bl br =>
        simp only [Node.insertF, items_inner, withItems_inner]
        simp only [Node.retrieveList, List.mem_append]
        exact Or.inl (Or.inr (by simp))
  | succ fuel ih =>
    constructor
    · intro n o it hw hh hmem
      cases n with
      | leaf a b c d e f g L =>
        simp only [Node.insertF]
        simp only [Node.retrieveList] at hmem
        split_ifs with hc
        · exact foldl_mem_retrieve fuel ih.1 ih.2 _ _ it hw hh
            (Or.inl (List.mem_append_left _ hmem))
        · simp only [Node.retrieveList]
          exact List.mem_append_left _ hmem
      | inner a b c d e f g L tl tr bl br =>
        simp only [Node.insertF]
        split_ifs with h0 h1 h2 h3
        · -- top-left child replaced
          have htl := ih.1 tl o it hw hh
          revert hmem
          have hdirs : (Node.inner a b c d e f g L (Node.insertF fuel tl o) tr bl br).findOverlappingNodes it
              = (Node.inner a b c d e f g L tl tr bl br).findOverlappingNodes it :=
            findOverlappingNodes_congr _ _ _ (by simp) (by simp) (by simp) (by simp)
          simp only [Node.retrieveList, List.mem_append, List.mem_flatMap]
          rw [hdirs]
          rintro (hmem | ⟨dir, hdir, hsel⟩)
          · exact Or.inl hmem
          · refine Or.inr ⟨dir, hdir, ?_⟩
            rcases overlap_dirs_sub _ _ _ hdir with rfl | rfl | rfl | rfl
            · simp only [TOP_LEFT, if_pos rfl] at hsel ⊢
              exact htl hsel
            · simpa [TOP_LEFT, TOP_RIGHT] using hsel
            · simpa [TOP_LEFT, TOP_RIGHT, BOTTOM_LEFT] using hsel
            · simpa [TOP_LEFT, TOP_RIGHT, BOTTOM_LEFT, BOTTOM_RIGHT] using hsel
        · -- top-right child replaced
          have htr := ih.1 tr o it hw hh
          revert hmem
          have hdirs : (Node.inner a b c d e f g L tl (Node.insertF fuel tr o) bl br).findOverlappingNodes it
              = (Node.inner a b c d e f g L tl tr bl br).findOverlappingNodes it :=
            findOverlappingNodes_congr _ _ _ (by simp) (by simp) (by simp) (by simp)
          simp only [Node.retrieveList, List.mem_append, List.mem_flatMap]
          rw [hdirs]
          rintro (hmem | ⟨dir, hdir, hsel⟩)
          · exact Or.inl hmem
          · refine Or.inr ⟨dir, hdir, ?_⟩
            rcases overlap_dirs_sub _ _ _ hdir with rfl | rfl | rfl | rfl
            · simpa [TOP_LEFT] using hsel
            · simp only [TOP_LEFT, TOP_RIGHT] at hsel ⊢
              simp only [show (1 : Nat) ≠ 0 by omega, if_neg, if_pos rfl] at hsel ⊢
              simp at hsel ⊢
              exact htr hsel
            · simpa [TOP_LEFT, TOP_RIGHT, BOTTOM_LEFT] using hsel
            · simpa [TOP_LEFT, TOP_RIGHT, BOTTOM_LEFT, BOTTOM_RIGHT] using hsel
        · -- bottom-left child replaced
          have hbl := ih.1 bl o it hw hh
          revert hmem
          have hdirs : (Node.inner a b c d e f g L tl tr (Node.insertF fuel bl o) br).findOverlappingNodes it
              = (Node.inner a b c d e f g L tl tr bl br).findOverlappingNodes it :=
            findOverlappingNodes_congr _ _ _ (by simp) (by simp) (by simp) (by simp)
          simp only [Node.retrieveList, List.mem_append, List.mem_flatMap]
          rw [hdirs]
          rintro (hmem | ⟨dir, hdir, hsel⟩)
          · exact Or.inl hmem
          · refine Or.inr ⟨dir, hdir, ?_⟩
            rcases overlap_dirs_sub _ _ _ hdir with rfl | rfl | rfl | rfl
            · simpa [TOP_LEFT] using hsel
            · simpa [TOP_LEFT, TOP_RIGHT] using hsel
            · simp only [TOP_LEFT, TOP_RIGHT, BOTTOM_LEFT] at hsel ⊢
              simp at hsel ⊢
              exact hbl hsel
            · simpa [TOP_LEFT, TOP_RIGHT, BOTTOM_LEFT, BOTTOM_RIGHT] using hsel
        · -- bottom-right child replaced
          have hbr := ih.1 br o it hw hh
          revert hmem
          have hdirs : (Node.inner a b c d e f g L tl tr bl (Node.insertF fuel br o)).findOverlappingNodes it
              = (Node.inner a b c d e f g L tl tr bl br).findOverlappingNodes it :=
            findOverlappingNodes_congr _ _ _ (by simp) (by simp) (by simp) (by simp)
          simp only [Node.retrieveList, List.mem_append, List.mem_flatMap]
          rw [hdirs]
          rintro (hmem | ⟨dir, hdir, hsel⟩)
          · exact Or.inl hmem
          · refine Or.inr ⟨dir, hdir, ?_⟩
            rcases overlap_dirs_sub _ _ _ hdir with rfl | rfl | rfl | rfl
            · simpa [TOP_LEFT] using hsel
            · simpa [TOP_LEFT, TOP_RIGHT] using hsel
            · simpa [TOP_LEFT, TOP_RIGHT, BOTTOM_LEFT] using hsel
            · simp only [TOP_LEFT, TOP_RIGHT, BOTTOM_LEFT, BOTTOM_RIGHT] at hsel ⊢
              simp at hsel ⊢
              exact hbr hsel
        · -- parent-held
          revert hmem
          have hdirs : (Node.inner a b c d e f g (L ++ [o]) tl tr bl br).findOverlappingNodes it
              = (Node.inner a b c d e f g L tl tr bl br).findOverlappingNodes it :=
            findOverlappingNodes_congr _ _ _ (by simp) (by simp) (by simp) (by simp)
          simp only [Node.retrieveList, List.mem_append]
          rw [hdirs]
          rintro (hmem | hmem)
          · exact Or.inl (Or.inl hmem)
          · exact Or.inr hmem
    · intro n it hw hh
      cases n with
      | leaf a b c d e f g L =>
        simp only [Node.insertF]
        split_ifs with hc
        · exact foldl_mem_retrieve fuel ih.1 ih.2 _ _ it hw hh
            (Or.inl (List.mem_append_right _ (by simp)))
        · simp only [Node.retrieveList]
          exact List.mem_append_right _ (by simp)
      | inner a b c d e f g L tl tr bl br =>
        simp only [Node.insertF]
        split_ifs with h0 h1 h2 h3
        · have hne : (Node.inner a b c d e f g L tl tr bl br).findInsertNode it ≠ PARENT := by
            rw [h0]; simp [TOP_LEFT, PARENT]
          have hsing := overlap_singleton _ it hw hh hne
          rw [h0] at hsing
          have hdirs : (Node.inner a b c d e f g L (Node.insertF fuel tl it) tr bl br).findOverlappingNodes it
              = (Node.inner a b c d e f g L tl tr bl br).findOverlappingNodes it :=
            findOverlappingNodes_congr _ _ _ (by simp) (by simp) (by simp) (by simp)
          simp only [Node.retrieveList, List.mem_append, List.mem_flatMap]
          rw [hdirs, hsing]
          exact Or.inr ⟨TOP_LEFT, by simp, by simp [TOP_LEFT]; exact ih.2 tl it hw hh⟩
        · have hne : (Node.inner a b c d e f g L tl tr bl br).findInsertNode it ≠ PARENT := by
            rw [h1]; simp [TOP_RIGHT, PARENT]
          have hsing := overlap_singleton _ it hw hh hne
          rw [h1] at hsing
          have hdirs : (Node.inner a b c d e f g L tl (Node.insertF fuel tr it) bl br).findOverlappingNodes it
              = (Node.inner a b c d e f g L tl tr bl br).findOverlappingNodes it :=
            findOverlappingNodes_congr _ _ _ (by simp) (by simp) (by simp) (by simp)
          simp only [Node.retrieveList, List.mem_append, List.mem_flatMap]
          rw [hdirs, hsing]
          refine Or.inr ⟨TOP_RIGHT, by simp, ?_⟩
          simp [TOP_RIGHT, TOP_LEFT]
          exact ih.2 tr it hw hh
        · have hne : (Node.inner a b c d e f g L tl tr bl br).findInsertNode it ≠ PARENT := by
            rw [h2]; simp [BOTTOM_LEFT, PARENT]
          have hsing := overlap_singleton _ it hw hh hne
          rw [h2] at hsing
          have hdirs : (Node.inner a b c d e f g L tl tr (Node.insertF fuel bl it) br).findOverlappingNodes it
              = (Node.inner a b c d e f g L tl tr bl br).findOverlappingNodes it :=
            findOverlappingNodes_congr _ _ _ (by simp) (by simp) (by simp) (by simp)
          simp only [Node.retrieveList, List.mem_append, List.mem_flatMap]
          rw [hdirs, hsing]
          refine Or.inr ⟨BOTTOM_LEFT, by simp, ?_⟩
          simp [BOTTOM_LEFT, TOP_LEFT, TOP_RIGHT]
          exact ih.2 bl it hw hh
        · have hne : (Node.inner a b c d e f g L tl tr bl br).findInsertNode it ≠ PARENT := by
            rw [h3]; simp [BOTTOM_RIGHT, PARENT]
          have hsing := overlap_singleton _ it hw hh hne
          rw [h3] at hsing
          have hdirs : (Node.inner a b c d e f g L tl tr bl (Node.insertF fuel br it)).findOverlappingNodes it
              = (Node.inner a b c d e f g L tl tr bl br).findOverlappingNodes it :=
            findOverlappingNodes_congr _ _ _ (by simp) (by simp) (by simp) (by simp)
          simp only [Node.retrieveList, List.mem_append, List.mem_flatMap]
          rw [hdirs, hsing]
          refine Or.inr ⟨BOTTOM_RIGHT, by simp, ?_⟩
          simp [BOTTOM_RIGHT, TOP_LEFT, TOP_RIGHT, BOTTOM_LEFT]
          exact ih.2 br it hw hh
        · simp only [Node.retrieveList, List.mem_append]
          exact Or.inl (Or.inr (by simp))

/-! ### Counting: insertion adds exactly the inserted item -/

/-- Folding insertions at fixed fuel adds exactly the folded items, assuming
the single-step count equation at that fuel. -/
theorem count_foldl_insertF (fuel : Nat)
    (hstep : ∀ (n : Node) (o a : Item),
      ((Node.insertF fuel n o).flattenItems).count a =
        (n.flattenItems).count a + ([o] : List Item).count a) :
    ∀ (l : List Item) (b : Node) (a : Item),
      ((l.foldl (fun acc el => Node.insertF fuel acc el) b).flattenItems).count a =
        (b.flattenItems).count a + l.count a := by
  intro l
  induction l with
  | nil => intro b a; simp
  | cons o l ih =>
    intro b a
    simp only [List.foldl_cons]
    rw [ih, hstep]
    have hsplit : (o :: l).count a = ([o] : List Item).count a + l.count a := by
      rw [show o :: l = [o] ++ l from rfl, List.count_append]
    omega

/-- insertF changes the multiset of items stored in the subtree by exactly
adding the inserted item (any fuel, any node). -/
theorem count_insertF : ∀ (fuel : Nat) (n : Node) (o a : Item),
    ((Node.insertF fuel n o).flattenItems).count a =
      (n.flattenItems).count a + ([o] : List Item).count a := by
  intro fuel
  induction fuel with
  | zero =>
    intro n o a
    cases n <;> simp [Node.insertF, Node.flattenItems, List.count_append, List.count_cons] <;> omega
  | succ fuel ih =>
    intro n o a
    cases n with
    | leaf a1 b1 c1 d1 e1 f1 g1 L =>
      simp only [Node.insertF]
      split_ifs with hc
      · rw [count_foldl_insertF fuel ih]
        simp [Node.flattenItems, List.count_append, List.count_cons]
      · simp [Node.flattenItems, List.count_append]
    | inner a1 b1 c1 d1 e1 f1 g1 L tl tr bl br =>
      simp only [Node.insertF]
      split_ifs with h0 h1 h2 h3 <;>
        simp [Node.flattenItems, List.count_append, List.count_cons, ih] <;> omega

/-- The API-level count equation. -/
theorem count_insert (n : Node) (o a : Item) :
    ((n.insert o).flattenItems).count a =
      (n.flattenItems).count a + ([o] : List Item).count a :=
  count_insertF n.insertFuel n o a

/-- Folding API-level insertions adds exactly the folded items. -/
theorem count_foldl_insert : ∀ (l : List Item) (b : Node) (a : Item),
    ((l.foldl Node.insert b).flattenItems).count a =
      (b.flattenItems).count a + l.count a := by
  intro l
  induction l with
  | nil => intro b a; simp
  | cons o l ih =>
    intro b a
    simp only [List.foldl_cons]
    rw [ih, count_insert]
    have hsplit : (o :: l).count a = ([o] : List Item).count a + l.count a := by
      rw [show o :: l = [o] ++ l from rfl, List.count_append]
    omega

/-- Component form of insertF_fields. -/
theorem insertF_x (fuel : Nat) (n : Node) (item : Item) :
    (Node.insertF fuel n item).x = n.x := (insertF_fields fuel n item).1

/-- Component form of insertF_fields. -/
theorem insertF_y (fuel : Nat) (n : Node) (item : Item) :
    (Node.insertF fuel n item).y = n.y := (insertF_fields fuel n item).2.1

/-- Component form of insertF_fields. -/
theorem insertF_w (fuel : Nat) (n : Node) (item : Item) :
    (Node.insertF fuel n item).w = n.w := (insertF_fields fuel n item).2.2.1

/-- Component form of insertF_fields. -/
theorem insertF_h (fuel : Nat) (n : Node) (item : Item) :
    (Node.insertF fuel n item).h = n.h := (insertF_fields fuel n item).2.2.2.1

/-- Component form of insertF_fields. -/
theorem insertF_depth (fuel : Nat) (n : Node) (item : Item) :
    (Node.insertF fuel n item).depth = n.depth :=
  (insertF_fields fuel n item).2.2.2.2.1

/-- Component form of insertF_fields. -/
theorem insertF_maxChildren (fuel : Nat) (n : Node) (item : Item) :
    (Node.insertF fuel n item).maxChildren = n.maxChildren :=
  (insertF_fields fuel n item).2.2.2.2.2.1

/-- Component form of insertF_fields. -/
theorem insertF_maxDepth (fuel : Nat) (n : Node) (item : Item) :
    (Node.insertF fuel n item).maxDepth = n.maxDepth :=
  (insertF_fields fuel n item).2.2.2.2.2.2

/-! ### Invariant preservation -/

/-- insertF preserves the quadrant geometry invariant (any fuel). -/
theorem quadsGeom_insertF : ∀ (fuel : Nat) (n : Node) (item : Item),
    n.quadsGeom = true → (Node.insertF fuel n item).quadsGeom = true := by
  intro fuel
  induction fuel with
  | zero =>
    intro n item hq
    cases n with
    | leaf a b c d e f g L => simp [Node.insertF, Node.quadsGeom]
    | inner a b c d e f g L tl tr bl br =>
      simpa [Node.insertF, Node.quadsGeom] using hq
  | succ fuel ih =>
    intro n item hq
    cases n with
    | leaf a b c d e f g L =>
      simp only [Node.insertF]
      split_ifs with hc
      · refine foldlPres (fun acc el => Node.insertF fuel acc el)
          (fun m => m.quadsGeom = true) (fun m el hm => ih m el hm) _ _ ?_
        simp [Node.quadsGeom]
      · simp [Node.quadsGeom]
    | inner a b c d e f g L tl tr bl br =>
      simp only [Node.insertF]
      simp only [Node.quadsGeom, Bool.and_eq_true, decide_eq_true_eq] at hq
      obtain ⟨⟨⟨⟨⟨⟨⟨hA, hB⟩, hC⟩, hD⟩, htl⟩, htr⟩, hbl⟩, hbr⟩ := hq
      split_ifs with h0 h1 h2 h3 <;>
        simp only [Node.quadsGeom, Bool.and_eq_true, decide_eq_true_eq,
          insertF_x, insertF_y, insertF_w, insertF_h] <;>
        exact ⟨⟨⟨⟨⟨⟨⟨hA, hB⟩, hC⟩, hD⟩, by first | exact ih tl item htl | exact htl⟩,
          by first | exact ih tr item htr | exact htr⟩,
          by first | exact ih bl item hbl | exact hbl⟩,
          by first | exact ih br item hbr | exact hbr⟩

/-- insertF preserves the depth bookkeeping invariant (any fuel). -/
theorem depthOk_insertF : ∀ (fuel : Nat) (n : Node) (item : Item),
    n.depthOk = true → (Node.insertF fuel n item).depthOk = true := by
  intro fuel
  induction fuel with
  | zero =>
    intro n item hq
    cases n with
    | leaf a b c d e f g L => simpa [Node.insertF, Node.depthOk] using hq
    | inner a b c d e f g L tl tr bl br =>
      simpa [Node.insertF, Node.depthOk] using hq
  | succ fuel ih =>
    intro n item hq
    cases n with
    | leaf a b c d e f g L =>
      simp only [Node.insertF]
      split_ifs with hc
      · refine foldlPres (fun acc el => Node.insertF fuel acc el)
          (fun m => m.depthOk = true) (fun m el hm => ih m el hm) _ _ ?_
        have he : e ≤ g := by
          simpa [Node.depthOk] using hq
        have he2 : e + 1 ≤ g := hc.2
        simp [Node.depthOk, he, he2]
      · simpa [Node.depthOk] using hq
    | inner a b c d e f g L tl tr bl br =>
      simp only [Node.insertF]
      simp only [Node.depthOk, Bool.and_eq_true, decide_eq_true_eq] at hq
      obtain ⟨⟨⟨⟨he, htlf, htlq⟩, htrf, htrq⟩, hblf, hblq⟩, hbrf, hbrq⟩ := hq
      split_ifs with h0 h1 h2 h3 <;>
        simp only [Node.depthOk, Bool.and_eq_true, decide_eq_true_eq,
          insertF_depth, insertF_maxChildren, insertF_maxDepth] <;>
        exact ⟨⟨⟨⟨he, htlf, by first | exact ih tl item htlq | exact htlq⟩,
          htrf, by first | exact ih tr item htrq | exact htrq⟩,
          hblf, by first | exact ih bl item hblq | exact hblq⟩,
          hbrf, by first | exact ih br item hbrq | exact hbrq⟩

/-! ### A covering query reaches every stored item -/

/-- When the query box covers a node of positive size whose subtree has the
quadrant geometry divide establishes, retrieve visits exactly the items
stored in the subtree (with multiplicity). -/
theorem count_retrieve_covers : ∀ (n : Node) (q : Item), n.quadsGeom = true →
    0 < n.w → 0 < n.h → coversBox q n →
    ∀ a : Item, ((n.retrieveList q).count a) = ((n.flattenItems).count a) := by
  intro n
  induction n with
  | leaf a b c d e f g L =>
    intro q _ _ _ _ aa
    simp [Node.retrieveList, Node.flattenItems]
  | inner a b c d e f g L tl tr bl br ihtl ihtr ihbl ihbr =>
    intro q hq hw hh hcov aa
    simp only [w_inner] at hw
    simp only [h_inner] at hh
    simp only [coversBox, x_inner, y_inner, w_inner, h_inner] at hcov
    obtain ⟨hc1, hc2, hc3, hc4⟩ := hcov
    have o1 : q.x < a + c / 2 := by linarith
    have o2 : q.y < b + d / 2 := by linarith
    have o3 : q.y + q.h ≥ b + d / 2 := by linarith
    have o4 : q.x + q.w ≥ a + c / 2 := by linarith
    have hdirs : (Node.inner a b c d e f g L tl tr bl br).findOverlappingNodes q
        = [TOP_LEFT, BOTTOM_LEFT, TOP_RIGHT, BOTTOM_RIGHT] := by
      simp [Node.findOverlappingNodes, x_inner, y_inner, w_inner, h_inner,
        o1, o2, o3, o4]
    simp only [Node.quadsGeom, Bool.and_eq_true, decide_eq_true_eq] at hq
    obtain ⟨⟨⟨⟨⟨⟨⟨hA, hB⟩, hC⟩, hD⟩, htl⟩, htr⟩, hbl⟩, hbr⟩ := hq
    have htlE := ihtl q htl (by rw [hA.2.2.1]; linarith) (by rw [hA.2.2.2]; linarith)
      ⟨by rw [hA.1]; linarith, by rw [hA.2.1]; linarith,
        by rw [hA.1, hA.2.2.1]; linarith, by rw [hA.2.1, hA.2.2.2]; linarith⟩ aa
    have htrE := ihtr q htr (by rw [hB.2.2.1]; linarith) (by rw [hB.2.2.2]; linarith)
      ⟨by rw [hB.1]; linarith, by rw [hB.2.1]; linarith,
        by rw [hB.1, hB.2.2.1]; linarith, by rw [hB.2.1, hB.2.2.2]; linarith⟩ aa
    have hblE := ihbl q hbl (by rw [hC.2.2.1]; linarith) (by rw [hC.2.2.2]; linarith)
      ⟨by rw [hC.1]; linarith, by rw [hC.2.1]; linarith,
        by rw [hC.1, hC.2.2.1]; linarith, by rw [hC.2.1, hC.2.2.2]; linarith⟩ aa
    have hbrE := ihbr q hbr (by rw [hD.2.2.1]; linarith) (by rw [hD.2.2.2]; linarith)
      ⟨by rw [hD.1]; linarith, by rw [hD.2.1]; linarith,
        by rw [hD.1, hD.2.2.1]; linarith, by rw [hD.2.1, hD.2.2.2]; linarith⟩ aa
    simp only [Node.retrieveList]
    rw [hdirs]
    simp only [List.flatMap_cons, List.flatMap_nil, TOP_LEFT, TOP_RIGHT, BOTTOM_LEFT,
      BOTTOM_RIGHT]
    norm_num
    simp only [Node.flattenItems, List.count_append, List.append_nil]
    rw [htlE, htrE, hblE, hbrE]
    omega

/-! ### Visitation order -/

/-- retrieve emits the node's own items first and then the overlapping child
subtrees in the order top-left, bottom-left, top-right, bottom-right. -/
theorem retrieveList_eq_ord : ∀ (n : Node) (q : Item),
    n.retrieveList q = n.retrieveListOrd q := by
  intro n
  induction n with
  | leaf a b c d e f g L => intro q; simp [Node.retrieveList, Node.retrieveListOrd]
  | inner a b c d e f g L tl tr bl br ihtl ihtr ihbl ihbr =>
    intro q
    simp only [Node.retrieveList, Node.retrieveListOrd, Node.findOverlappingNodes,
      x_inner, y_inner, w_inner, h_inner]
    by_cases c1 : q.x < a + c / 2 <;> by_cases c2 : q.y < b + d / 2 <;>
      by_cases c3 : q.y + q.h ≥ b + d / 2 <;> by_cases c4 : q.x + q.w ≥ a + c / 2 <;>
      simp [c1, c2, c3, c4, TOP_LEFT, TOP_RIGHT, BOTTOM_LEFT, BOTTOM_RIGHT,
        ihtl, ihtr, ihbl, ihbr]

/-- The explicit-state retrieve returns the collected visits together with
the unchanged tree. -/
theorem retrieveSt_pair : ∀ (n : Node) (q : Item),
    n.retrieveSt q = (n.retrieveList q, n) := by
  intro n
  induction n with
  | leaf a b c d e f g L => intro q; simp [Node.retrieveSt, Node.retrieveList]
  | inner a b c d e f g L tl tr bl br ihtl ihtr ihbl ihbr =>
    intro q
    rw [retrieveList_eq_ord]
    simp only [Node.retrieveSt, Node.retrieveListOrd, ihtl, ihtr, ihbl, ihbr]
    by_cases c1 : q.x < a + c / 2 <;> by_cases c2 : q.y < b + d / 2 <;>
      by_cases c3 : q.y + q.h ≥ b + d / 2 <;> by_cases c4 : q.x + q.w ≥ a + c / 2 <;>
      simp [c1, c2, c3, c4, retrieveList_eq_ord]

/-! ### Items held at a node stay there -/

/-- Replacing items twice keeps the last replacement. -/
theorem withItems_withItems (n : Node) (l1 l2 : List Item) :
    (n.withItems l1).withItems l2 = n.withItems l2 := by
  cases n <;> rfl

/-- withItems installs exactly the given items. -/
theorem items_withItems (n : Node) (l : List Item) : (n.withItems l).items = l := by
  cases n <;> rfl

/-- withItems does not change leaf-ness. -/
theorem isLeaf_withItems (n : Node) (l : List Item) :
    (n.withItems l).isLeaf = n.isLeaf := by
  cases n <;> rfl

/-- Replacing a node's items by their current value changes nothing. -/
theorem withItems_self (n : Node) : n.withItems n.items = n := by
  cases n <;> rfl

/-- withItems keeps the bounding box, so classification is unchanged. -/
theorem findInsertNode_withItems (n : Node) (l : List Item) (it : Item) :
    (n.withItems l).findInsertNode it = n.findInsertNode it :=
  findInsertNode_congr _ _ _ (by cases n <;> rfl) (by cases n <;> rfl)
    (by cases n <;> rfl) (by cases n <;> rfl)

/-- Insertion into a node with subnodes never removes anything from the
node's own items. -/
theorem items_sub_insertF_inner (fuel : Nat) (n : Node) (o it : Item)
    (hn : n.isLeaf = false) (hit : it ∈ n.items) :
    it ∈ (Node.insertF fuel n o).items := by
  cases fuel with
  | zero =>
    cases n with
    | leaf a b c d e f g L => simp at hn
    | inner a b c d e f g L tl tr bl br =>
      simp only [Node.items] at hit
      simp only [Node.insertF, items_inner, withItems_inner]
      exact List.mem_append_left _ hit
  | succ fuel =>
    cases n with
    | leaf a b c d e f g L => simp at hn
    | inner a b c d e f g L tl tr bl br =>
      simp only [Node.insertF]
      simp only [Node.items] at hit
      split_ifs <;> simp only [items_inner] <;>
        first
          | exact hit
          | exact List.mem_append_left _ hit

/-- A node with subnodes that classifies the item as PARENT pushes it onto
its own items and changes nothing else (any fuel). -/
theorem insertF_inner_parent (fuel : Nat) (n : Node) (it : Item)
    (hn : n.isLeaf = false) (hp : n.findInsertNode it = PARENT) :
    Node.insertF fuel n it = n.withItems (n.items ++ [it]) := by
  cases fuel with
  | zero => rfl
  | succ fuel =>
    cases n with
    | leaf a b c d e f g L => simp at hn
    | inner a b c d e f g L tl tr bl br =>
      simp only [Node.insertF]
      rw [hp]
      simp [PARENT, TOP_LEFT, TOP_RIGHT, BOTTOM_LEFT, BOTTOM_RIGHT]

/-- Folding insertions into a node with subnodes keeps a PARENT-classified
item in that node's own items, and puts it there when it occurs among the
folded items. -/
theorem foldl_parent_mem (fuel : Nat) (it : Item) :
    ∀ (l : List Item) (m : Node), m.isLeaf = false →
      m.findInsertNode it = PARENT →
      (it ∈ m.items ∨ it ∈ l) →
      it ∈ ((l.foldl (fun acc el => Node.insertF fuel acc el) m)).items := by
  intro l
  induction l with
  | nil =>
    intro m hm hp hmem
    rcases hmem with hmem | hmem
    · simpa using hmem
    · simp at hmem
  | cons o l ih =>
    intro m hm hp hmem
    simp only [List.foldl_cons]
    have hm2 : (Node.insertF fuel m o).isLeaf = false := insertF_isLeaf_false fuel m o hm
    have hp2 : (Node.insertF fuel m o).findInsertNode it = PARENT := by
      rw [findInsertNode_congr _ m it (insertF_x fuel m o) (insertF_y fuel m o)
        (insertF_w fuel m o) (insertF_h fuel m o)]
      exact hp
    rcases hmem with hmem | hmem
    · exact ih _ hm2 hp2 (Or.inl (items_sub_insertF_inner fuel m o it hm hmem))
    · rcases List.mem_cons.mp hmem with heq | hl
      · subst heq
        refine ih _ hm2 hp2 (Or.inl ?_)
        rw [insertF_inner_parent fuel m it hm hp, items_withItems]
        exact List.mem_append_right _ (by simp)
      · exact ih _ hm2 hp2 (Or.inr hl)

/-- A PARENT-classified item already stored in a node's own items stays
there across any further insertion (any fuel). -/
theorem parent_retention (fuel : Nat) (n : Node) (o it : Item)
    (hp : n.findInsertNode it = PARENT) (hit : it ∈ n.items) :
    it ∈ (Node.insertF fuel n o).items := by
  cases fuel with
  | zero =>
    cases n <;>
      simp only [Node.insertF, items_withItems] <;>
      exact List.mem_append_left _ (by simpa using hit)
  | succ fuel =>
    cases n with
    | inner a b c d e f g L tl tr bl br =>
      exact items_sub_insertF_inner _ _ _ _ (by simp) hit
    | leaf a b c d e f g L =>
      simp only [Node.insertF]
      simp only [items_leaf] at hit
      split_ifs with hc
      · refine foldl_parent_mem fuel it _ _ (by simp) ?_
          (Or.inr (List.mem_append_left _ hit))
        exact (findInsertNode_congr _ (Node.leaf a b c d e f g L) it (by simp)
          (by simp) (by simp) (by simp)).trans hp
      · simp only [items_leaf]
        exact List.mem_append_left _ hit

/-- Inserting a PARENT-classified item puts it into that node's own items
(any fuel, leaf or inner). -/
theorem parent_insert_self_mem (fuel : Nat) (n : Node) (it : Item)
    (hp : n.findInsertNode it = PARENT) :
    it ∈ (Node.insertF fuel n it).items := by
  cases fuel with
  | zero =>
    cases n <;> simp only [Node.insertF, items_withItems] <;>
      exact List.mem_append_right _ (by simp)
  | succ fuel =>
    cases n with
    | inner a b c d e f g L tl tr bl br =>
      rw [insertF_inner_parent (fuel + 1) _ it (by simp) hp, items_withItems]
      exact List.mem_append_right _ (by simp)
    | leaf a b c d e f g L =>
      simp only [Node.insertF]
      split_ifs with hc
      · refine foldl_parent_mem fuel it _ _ (by simp) ?_
          (Or.inr (List.mem_append_right _ (by simp)))
        exact (findInsertNode_congr _ (Node.leaf a b c d e f g L) it (by simp)
          (by simp) (by simp) (by simp)).trans hp
      · simp only [items_leaf]
        exact List.mem_append_right _ (by simp)

/-- Folding API insertions of PARENT-classified items into a node with
subnodes appends them all to its own items and changes nothing else. -/
theorem foldl_insert_parent_eq : ∀ (ps : List Item) (n : Node),
    n.isLeaf = false → (∀ p ∈ ps, n.findInsertNode p = PARENT) →
    ps.foldl Node.insert n = n.withItems (n.items ++ ps) := by
  intro ps
  induction ps with
  | nil => intro n _ _; simp [withItems_self]
  | cons p ps ih =>
    intro n hn hps
    simp only [List.foldl_cons]
    have hstep : Node.insert n p = n.withItems (n.items ++ [p]) :=
      insertF_inner_parent n.insertFuel n p hn (hps p (by simp))
    rw [hstep]
    rw [ih (n.withItems (n.items ++ [p]))
      (by rw [isLeaf_withItems]; exact hn)
      (fun o ho => by
        rw [findInsertNode_withItems]
        exact hps o (List.mem_cons_of_mem _ ho))]
    rw [withItems_withItems, items_withItems]
    simp

/-! ### The depth cap -/

/-- A leaf whose depth has reached maxDepth appends and never divides. -/
theorem insertF_leaf_atcap (fuel : Nat) (a b c d : ℚ) (e f g : Nat)
    (L : List Item) (it : Item) (hcap : ¬ e < g) :
    Node.insertF fuel (Node.leaf a b c d e f g L) it =
      Node.leaf a b c d e f g (L ++ [it]) := by
  cases fuel with
  | zero => rfl
  | succ fuel =>
    simp only [Node.insertF]
    rw [if_neg]
    intro hcon
    exact hcap hcon.2

/-- Any sequence of API insertions into a depth-capped leaf accumulates all
the items in order, never subdividing. -/
theorem foldl_insert_leaf_atcap : ∀ (its : List Item) (a b c d : ℚ) (e f g : Nat)
    (L : List Item), ¬ e < g →
    its.foldl Node.insert (Node.leaf a b c d e f g L) =
      Node.leaf a b c d e f g (L ++ its) := by
  intro its
  induction its with
  | nil => intro a b c d e f g L _; simp
  | cons o its ih =>
    intro a b c d e f g L hcap
    simp only [List.foldl_cons, Node.insert]
    rw [insertF_leaf_atcap _ _ _ _ _ _ _ _ _ _ hcap]
    rw [ih _ _ _ _ _ _ _ _ hcap]
    simp

/-- Under the depth bookkeeping invariant, every node of the subtree sits at
depth at most the (shared) maxDepth. -/
theorem depthOk_allNodes : ∀ (n : Node), n.depthOk = true →
    ∀ m ∈ n.allNodes, m.depth ≤ n.maxDepth := by
  intro n
  induction n with
  | leaf a b c d e f g L =>
    intro hok m hm
    simp only [Node.allNodes, List.mem_singleton] at hm
    subst hm
    simpa [Node.depthOk] using hok
  | inner a b c d e f g L tl tr bl br ihtl ihtr ihbl ihbr =>
    intro hok m hm
    simp only [Node.depthOk, Bool.and_eq_true, decide_eq_true_eq] at hok
    obtain ⟨⟨⟨⟨he, htlf, htlq⟩, htrf, htrq⟩, hblf, hblq⟩, hbrf, hbrq⟩ := hok
    simp only [Node.allNodes, List.mem_cons, List.mem_append] at hm
    simp only [maxDepth_inner]
    rcases hm with rfl | h
    · simpa using he
    · rcases h with ((h | h) | h) | h
      · have := ihtl htlq m h
        rwa [htlf.2.2] at this
      · have := ihtr htrq m h
        rwa [htrf.2.2] at this
      · have := ihbl hblq m h
        rwa [hblf.2.2] at this
      · have := ihbr hbrq m h
        rwa [hbrf.2.2] at this

/-! ### Retrieve visits a stored item at most as often as it is stored -/

/-- Every retrieve visits each item at most as many times as the subtree
stores it. -/
theorem count_retrieve_le_flatten : ∀ (n : Node) (q a : Item),
    ((n.retrieveList q).count a) ≤ ((n.flattenItems).count a) := by
  intro n
  induction n with
  | leaf a b c d e f g L => intro q aa; simp [Node.retrieveList, Node.flattenItems]
  | inner a b c d e f g L tl tr bl br ihtl ihtr ihbl ihbr =>
    intro q aa
    have h1 := ihtl q aa
    have h2 := ihtr q aa
    have h3 := ihbl q aa
    have h4 := ihbr q aa
    simp only [Node.retrieveList, Node.flattenItems, Node.findOverlappingNodes,
      x_inner, y_inner, w_inner, h_inner]
    by_cases c1 : q.x < a + c / 2 <;> by_cases c2 : q.y < b + d / 2 <;>
      by_cases c3 : q.y + q.h ≥ b + d / 2 <;> by_cases c4 : q.x + q.w ≥ a + c / 2 <;>
      simp [c1, c2, c3, c4, TOP_LEFT, TOP_RIGHT, BOTTOM_LEFT, BOTTOM_RIGHT,
        List.count_append] <;>
      omega

/-! ### API-level fold facts -/

/-- Folding API insertions keeps the root's box and parameters. -/
theorem foldl_insert_box : ∀ (L : List Item) (b : Node),
    (L.foldl Node.insert b).x = b.x ∧ (L.foldl Node.insert b).y = b.y ∧
      (L.foldl Node.insert b).w = b.w ∧ (L.foldl Node.insert b).h = b.h ∧
      (L.foldl Node.insert b).maxDepth = b.maxDepth := by
  intro L
  induction L with
  | nil => intro b; exact ⟨rfl, rfl, rfl, rfl, rfl⟩
  | cons o L ih =>
    intro b
    simp only [List.foldl_cons]
    obtain ⟨h1, h2, h3, h4, h5⟩ := ih (Node.insert b o)
    obtain ⟨g1, g2, g3, g4, _, _, g7⟩ := insert_fields b o
    exact ⟨h1.trans g1, h2.trans g2, h3.trans g3, h4.trans g4, h5.trans g7⟩

/-- Folding API insertions preserves the quadrant geometry invariant. -/
theorem foldl_insert_quadsGeom (L : List Item) (b : Node)
    (hq : b.quadsGeom = true) : (L.foldl Node.insert b).quadsGeom = true :=
  foldlPres Node.insert (fun m => m.quadsGeom = true)
    (fun m o hm => quadsGeom_insertF m.insertFuel m o hm) L b hq

/-- Folding API insertions preserves the depth bookkeeping invariant. -/
theorem foldl_insert_depthOk (L : List Item) (b : Node)
    (hq : b.depthOk = true) : (L.foldl Node.insert b).depthOk = true :=
  foldlPres Node.insert (fun m => m.depthOk = true)
    (fun m o hm => depthOk_insertF m.insertFuel m o hm) L b hq

/-- Folding API insertions keeps a PARENT-classified item in the node's own
items, together with its classification. -/
theorem foldl_insert_parent_retention (os : List Item) (n : Node) (it : Item)
    (hp : n.findInsertNode it = PARENT) (hit : it ∈ n.items) :
    it ∈ (os.foldl Node.insert n).items ∧
      (os.foldl Node.insert n).findInsertNode it = PARENT := by
  refine foldlPres Node.insert
    (fun m => it ∈ m.items ∧ m.findInsertNode it = PARENT) ?_ os n ⟨hit, hp⟩
  intro m o hm
  refine ⟨parent_retention m.insertFuel m o it hm.2 hm.1, ?_⟩
  exact (findInsertNode_congr _ m it (insertF_x _ m o) (insertF_y _ m o)
    (insertF_w _ m o) (insertF_h _ m o)).trans hm.2

/-- Folding API insertions of other items does not change how often an item
is stored in the tree. -/
theorem foldl_insert_count_const : ∀ (os : List Item) (b : Node) (a : Item),
    a ∉ os →
    ((os.foldl Node.insert b).flattenItems).count a = ((b.flattenItems).count a) := by
  intro os
  induction os with
  | nil => intro b a _; rfl
  | cons o os ih =>
    intro b a ha
    simp only [List.foldl_cons]
    rw [ih _ _ (fun hmem => ha (List.mem_cons_of_mem _ hmem))]
    rw [count_insert]
    have hza : ([o] : List Item).count a = 0 := by
      rw [List.count_eq_zero]
      intro hmem
      apply ha
      simp only [List.mem_singleton] at hmem
      subst hmem
      exact List.mem_cons_self _ _
    omega

/-! ### Claims -/

/-- Claim C1: for every item with numeric fields and non-negative w and h
lying inside the tree's bounding box, after insert(item) on any tree state,
a retrieve whose query region equals the item's own bounding box (same
x, y, w, h) invokes the callback on that item at least once. -/
theorem claim_C1 (n : Node) (item : Item) (hw : 0 ≤ item.w) (hh : 0 ≤ item.h)
    (hin : item.insideBox n) :
    item ∈ (n.insert item).retrieveList item :=
  (insertF_retrieve_main n.insertFuel).2 n item hw hh

/-- Witness for claim C1: a concrete fresh 100 by 100 tree and a concrete
item inside it. -/
theorem claim_C1_witness :
    0 ≤ (Item.mk 10 10 5 5).w ∧ 0 ≤ (Item.mk 10 10 5 5).h ∧
      (Item.mk 10 10 5 5).insideBox (quadInit (Args.mk 0 0 100 100 none none)).1.root ∧
      Item.mk 10 10 5 5 ∈
        ((quadInit (Args.mk 0 0 100 100 none none)).1.root.insert
          (Item.mk 10 10 5 5)).retrieveList (Item.mk 10 10 5 5) :=
  ⟨by norm_num, by norm_num, by norm_num [Item.insideBox, quadInit],
    claim_C1 _ _ (by norm_num) (by norm_num)
      (by norm_num [Item.insideBox, quadInit])⟩

/-- Claim C2 (amended): provided the root bounding box has positive width
and height, for every sequence of inserted items (numeric fields,
non-negative w and h) that triggers one or more subdivisions, a retrieve
whose query region equals the full root bounding box visits a multiset of
items equal to the multiset of all items ever inserted. -/
theorem claim_C2 (args : Args) (L : List Item) (hw : 0 < args.w)
    (hh : 0 < args.h) (hitems : ∀ it ∈ L, 0 ≤ it.w ∧ 0 ≤ it.h)
    (hdiv : ((quadInit args).1.insertList L).root.isLeaf = false) :
    Multiset.ofList
        (QUAD.retrieve ((quadInit args).1.insertList L)
          (Item.mk args.x args.y args.w args.h)) =
      Multiset.ofList L := by
  apply Multiset.coe_eq_coe.mpr
  apply List.perm_iff_count.mpr
  intro a
  have hroot : (quadInit args).1.root =
      Node.leaf args.x args.y args.w args.h 0 (orDefault args.maxChildren 2)
        (orDefault args.maxDepth 4) [] := rfl
  simp only [QUAD.retrieve, QUAD.insertList, hroot]
  have hgeom := foldl_insert_quadsGeom L
    (Node.leaf args.x args.y args.w args.h 0 (orDefault args.maxChildren 2)
      (orDefault args.maxDepth 4) []) (by simp [Node.quadsGeom])
  obtain ⟨hx, hy, hww, hhh, _⟩ := foldl_insert_box L
    (Node.leaf args.x args.y args.w args.h 0 (orDefault args.maxChildren 2)
      (orDefault args.maxDepth 4) [])
  have hcov : coversBox (Item.mk args.x args.y args.w args.h)
      (L.foldl Node.insert
        (Node.leaf args.x args.y args.w args.h 0 (orDefault args.maxChildren 2)
          (orDefault args.maxDepth 4) [])) := by
    refine ⟨?_, ?_, ?_, ?_⟩ <;> simp [hx, hy, hww, hhh]
  rw [count_retrieve_covers _ _ hgeom (by rw [hww]; simpa using hw)
    (by rw [hhh]; simpa using hh) hcov a]
  rw [count_foldl_insert]
  simp [Node.flattenItems]

set_option maxHeartbeats 1000000 in
/-- Claim C2, counterexample to the original statement: with a degenerate
root bounding box (w = h = 0, maxDepth 1), three inserted items of
non-negative size trigger a subdivision, yet a retrieve whose query region
equals the full root bounding box visits no items at all. -/
theorem claim_C2_counterexample :
    (∀ it ∈ [Item.mk (-5) (-5) 1 1, Item.mk (-5) (-5) 1 1, Item.mk (-5) (-5) 1 1],
      0 ≤ it.w ∧ 0 ≤ it.h) ∧
    ((quadInit (Args.mk 0 0 0 0 none (some 1))).1.insertList
        [Item.mk (-5) (-5) 1 1, Item.mk (-5) (-5) 1 1,
          Item.mk (-5) (-5) 1 1]).root.isLeaf = false ∧
    Multiset.ofList
        (QUAD.retrieve
          ((quadInit (Args.mk 0 0 0 0 none (some 1))).1.insertList
            [Item.mk (-5) (-5) 1 1, Item.mk (-5) (-5) 1 1, Item.mk (-5) (-5) 1 1])
          (Item.mk 0 0 0 0)) ≠
      Multiset.ofList
        [Item.mk (-5) (-5) 1 1, Item.mk (-5) (-5) 1 1, Item.mk (-5) (-5) 1 1] := by
  refine ⟨by norm_num, ?_, ?_⟩
  · norm_num [QUAD.insertList, quadInit, orDefault, Node.insert, Node.insertFuel,
      Node.insertF, Node.findInsertNode, TOP_LEFT, TOP_RIGHT, BOTTOM_LEFT,
      BOTTOM_RIGHT, PARENT]
  · have hres : QUAD.retrieve
        ((quadInit (Args.mk 0 0 0 0 none (some 1))).1.insertList
          [Item.mk (-5) (-5) 1 1, Item.mk (-5) (-5) 1 1, Item.mk (-5) (-5) 1 1])
        (Item.mk 0 0 0 0) = [] := by
      norm_num [QUAD.retrieve, QUAD.insertList, quadInit, orDefault, Node.insert,
        Node.insertFuel, Node.insertF, Node.findInsertNode, Node.retrieveList,
        Node.findOverlappingNodes, TOP_LEFT, TOP_RIGHT, BOTTOM_LEFT, BOTTOM_RIGHT,
        PARENT]
    rw [hres]
    intro hcon
    have hcard := congrArg Multiset.card hcon
    simp at hcard

set_option maxHeartbeats 1000000 in
/-- Claim C2, witness for the amended statement: a concrete 100 by 100 tree,
three items that trigger a subdivision, and the full-box retrieve returning
exactly their multiset. -/
theorem claim_C2_witness :
    (0 : ℚ) < (Args.mk (0 : ℚ) 0 100 100 none (some 1)).w ∧
    (0 : ℚ) < (Args.mk (0 : ℚ) 0 100 100 none (some 1)).h ∧
    (∀ it ∈ [Item.mk 10 10 5 5, Item.mk 60 10 5 5, Item.mk 10 60 5 5],
      0 ≤ it.w ∧ 0 ≤ it.h) ∧
    ((quadInit (Args.mk (0 : ℚ) 0 100 100 none (some 1))).1.insertList
      [Item.mk 10 10 5 5, Item.mk 60 10 5 5, Item.mk 10 60 5 5]).root.isLeaf
      = false ∧
    Multiset.ofList
        (QUAD.retrieve
          ((quadInit (Args.mk (0 : ℚ) 0 100 100 none (some 1))).1.insertList
            [Item.mk 10 10 5 5, Item.mk 60 10 5 5, Item.mk 10 60 5 5])
          (Item.mk (Args.mk (0 : ℚ) 0 100 100 none (some 1)).x
            (Args.mk (0 : ℚ) 0 100 100 none (some 1)).y
            (Args.mk (0 : ℚ) 0 100 100 none (some 1)).w
            (Args.mk (0 : ℚ) 0 100 100 none (some 1)).h)) =
      Multiset.ofList [Item.mk 10 10 5 5, Item.mk 60 10 5 5, Item.mk 10 60 5 5] := by
  have hdiv : ((quadInit (Args.mk (0 : ℚ) 0 100 100 none (some 1))).1.insertList
      [Item.mk 10 10 5 5, Item.mk 60 10 5 5, Item.mk 10 60 5 5]).root.isLeaf
      = false := by
    norm_num [QUAD.insertList, quadInit, orDefault, Node.insert, Node.insertFuel,
      Node.insertF, Node.findInsertNode, TOP_LEFT, TOP_RIGHT, BOTTOM_LEFT,
      BOTTOM_RIGHT, PARENT]
  exact ⟨by norm_num, by norm_num, by norm_num, hdiv,
    claim_C2 (Args.mk (0 : ℚ) 0 100 100 none (some 1))
      [Item.mk 10 10 5 5, Item.mk 60 10 5 5, Item.mk 10 60 5 5]
      (by norm_num) (by norm_num) (by norm_num) hdiv⟩

set_option maxHeartbeats 1000000 in
/-- Claim C3, counterexample: in a subdivided 100 by 100 tree with one item
in each of the top-left, top-right and bottom-left children, a full-box
retrieve emits the bottom-left child's item before the top-right child's, so
the visitation order is not the spec's top-left, top-right, bottom-left,
bottom-right. -/
theorem claim_C3_counterexample :
    ((quadInit (Args.mk (0 : ℚ) 0 100 100 none (some 1))).1.insertList
        [Item.mk 10 10 5 5, Item.mk 60 10 5 5, Item.mk 10 60 5 5]).root.retrieveList
        (Item.mk 0 0 100 100) ≠
      ((quadInit (Args.mk (0 : ℚ) 0 100 100 none (some 1))).1.insertList
        [Item.mk 10 10 5 5, Item.mk 60 10 5 5, Item.mk 10 60 5 5]).root.retrieveListSpec
        (Item.mk 0 0 100 100) := by
  have h1 : ((quadInit (Args.mk (0 : ℚ) 0 100 100 none (some 1))).1.insertList
      [Item.mk 10 10 5 5, Item.mk 60 10 5 5, Item.mk 10 60 5 5]).root.retrieveList
      (Item.mk 0 0 100 100)
      = [Item.mk 10 10 5 5, Item.mk 10 60 5 5, Item.mk 60 10 5 5] := by
    norm_num [QUAD.insertList, quadInit, orDefault, Node.insert, Node.insertFuel,
      Node.insertF, Node.findInsertNode, Node.retrieveList,
      Node.findOverlappingNodes, TOP_LEFT, TOP_RIGHT, BOTTOM_LEFT, BOTTOM_RIGHT,
      PARENT]
  have h2 : ((quadInit (Args.mk (0 : ℚ) 0 100 100 none (some 1))).1.insertList
      [Item.mk 10 10 5 5, Item.mk 60 10 5 5, Item.mk 10 60 5 5]).root.retrieveListSpec
      (Item.mk 0 0 100 100)
      = [Item.mk 10 10 5 5, Item.mk 60 10 5 5, Item.mk 10 60 5 5] := by
    norm_num [QUAD.insertList, quadInit, orDefault, Node.insert, Node.insertFuel,
      Node.insertF, Node.findInsertNode, Node.retrieveListSpec, TOP_LEFT,
      TOP_RIGHT, BOTTOM_LEFT, BOTTOM_RIGHT, PARENT]
  rw [h1, h2]
  intro hcon
  simp only [List.cons.injEq, Item.mk.injEq] at hcon
  norm_num at hcon

/-- Claim C3 (amended): for every tree state and every query item, retrieve
emits this Node's own items first in insertion order, and then the results
of each overlapping child subtree in the fixed quadrant order top-left,
bottom-left, top-right, bottom-right. -/
theorem claim_C3 (n : Node) (q : Item) : n.retrieveList q = n.retrieveListOrd q :=
  retrieveList_eq_ord n q

set_option maxHeartbeats 4000000 in
/-- Claim C4, counterexample: an Index constructed with maxDepth 0 receives
the default maxDepth 4 (0 is falsy), so two inserted items (with
maxChildren 1) subdivide the root, which therefore does not remain a
leaf. -/
theorem claim_C4_counterexample :
    ((quadInit (Args.mk (0 : ℚ) 0 100 100 (some 1) (some 0))).1.insertList
      [Item.mk 10 10 5 5, Item.mk 60 10 5 5]).root.isLeaf = false := by
  norm_num [QUAD.insertList, quadInit, orDefault, Node.insert, Node.insertFuel,
    Node.insertF, Node.findInsertNode, TOP_LEFT, TOP_RIGHT, BOTTOM_LEFT,
    BOTTOM_RIGHT, PARENT]

/-- Claim C4 (amended): an Index constructed with maxDepth 0 gets the
default maxDepth 4, because 0 is falsy; a root Node whose maxDepth really is
0 never subdivides under any number of insertions and remains a leaf whose
items sequence holds every inserted item. -/
theorem claim_C4 (args : Args) (hmd : args.maxDepth = some 0) (a b c d : ℚ)
    (mc : Nat) (L its : List Item) :
    (quadInit args).1.root.maxDepth = 4 ∧
    (its.foldl Node.insert (Node.leaf a b c d 0 mc 0 L)).isLeaf = true ∧
    (its.foldl Node.insert (Node.leaf a b c d 0 mc 0 L)).items = L ++ its := by
  refine ⟨by simp [quadInit, hmd, orDefault], ?_, ?_⟩
  · rw [foldl_insert_leaf_atcap its a b c d 0 mc 0 L (by omega)]
    simp
  · rw [foldl_insert_leaf_atcap its a b c d 0 mc 0 L (by omega)]
    simp

/-- Witness for the amended claim C4 at concrete values. -/
theorem claim_C4_witness :
    (Args.mk (0 : ℚ) 0 100 100 none (some 0)).maxDepth = some 0 ∧
    ((quadInit (Args.mk (0 : ℚ) 0 100 100 none (some 0))).1.root.maxDepth = 4 ∧
      (([Item.mk 10 10 5 5, Item.mk 60 10 5 5, Item.mk 10 60 5 5].foldl Node.insert
        (Node.leaf (0 : ℚ) 0 100 100 0 2 0 [])).isLeaf = true ∧
      ([Item.mk 10 10 5 5, Item.mk 60 10 5 5, Item.mk 10 60 5 5].foldl Node.insert
        (Node.leaf (0 : ℚ) 0 100 100 0 2 0 [])).items =
        [] ++ [Item.mk 10 10 5 5, Item.mk 60 10 5 5, Item.mk 10 60 5 5])) :=
  ⟨rfl, claim_C4 (Args.mk (0 : ℚ) 0 100 100 none (some 0)) rfl 0 0 100 100 2 []
    [Item.mk 10 10 5 5, Item.mk 60 10 5 5, Item.mk 10 60 5 5]⟩

/-- Claim C7: after clear() on any tree state, every node of the subtree has
empty items and empty children (the root reverts to an empty leaf, so a
retrieve over the full bounding box visits zero items); clear is idempotent;
and the node's x, y, w, h, depth, maxChildren and maxDepth are unchanged. -/
theorem claim_C7 (n : Node) (q : Item) :
    (n.clear).items = [] ∧ (n.clear).isLeaf = true ∧
      (n.clear).retrieveList q = [] ∧ n.clear.clear = n.clear ∧
      (n.clear).x = n.x ∧ (n.clear).y = n.y ∧ (n.clear).w = n.w ∧
      (n.clear).h = n.h ∧ (n.clear).depth = n.depth ∧
      (n.clear).maxChildren = n.maxChildren ∧
      (n.clear).maxDepth = n.maxDepth := by
  cases n <;> simp [Node.clear, Node.retrieveList]

/-- Claim C9: retrieve is read-only: running the explicit-state rendering of
Node.retrieve on any tree state, query item and callback stream leaves every
node of the tree exactly as it was before the call, while emitting the same
visits as the pure retrieve. -/
theorem claim_C9 (n : Node) (q : Item) :
    n.retrieveSt q = (n.retrieveList q, n) :=
  retrieveSt_pair n q

/-- Claim C10: the QUAD constructor mutates the caller-supplied args object:
when maxChildren or maxDepth is omitted or falsy, the defaulted values 2 and
4 are written back into the caller's own object, observable to the caller
after construction. -/
theorem claim_C10 (args : Args)
    (hmc : args.maxChildren = none ∨ args.maxChildren = some 0)
    (hmd : args.maxDepth = none ∨ args.maxDepth = some 0) :
    (quadInit args).2.maxChildren = some 2 ∧
      (quadInit args).2.maxDepth = some 4 ∧
      (quadInit args).2.x = args.x ∧ (quadInit args).2.y = args.y ∧
      (quadInit args).2.w = args.w ∧ (quadInit args).2.h = args.h ∧
      (quadInit args).2 ≠ args := by
  have hmc2 : orDefault args.maxChildren 2 = 2 := by
    rcases hmc with hmc | hmc <;> simp [hmc, orDefault]
  have hmd2 : orDefault args.maxDepth 4 = 4 := by
    rcases hmd with hmd | hmd <;> simp [hmd, orDefault]
  have h2 : (quadInit args).2 = Args.mk args.x args.y args.w args.h
      (some (orDefault args.maxChildren 2)) (some (orDefault args.maxDepth 4)) := rfl
  rw [h2, hmc2, hmd2]
  refine ⟨rfl, rfl, rfl, rfl, rfl, rfl, ?_⟩
  intro hcon
  have hfield := congrArg Args.maxChildren hcon
  simp only at hfield
  rcases hmc with hmc | hmc <;> rw [hmc] at hfield <;> simp at hfield

/-- Witness for claim C10 with both optional fields omitted. -/
theorem claim_C10_witness :
    (quadInit (Args.mk (0 : ℚ) 0 100 100 none none)).2.maxChildren = some 2 ∧
      (quadInit (Args.mk (0 : ℚ) 0 100 100 none none)).2.maxDepth = some 4 ∧
      (quadInit (Args.mk (0 : ℚ) 0 100 100 none none)).2.x =
        (Args.mk (0 : ℚ) 0 100 100 none none).x ∧
      (quadInit (Args.mk (0 : ℚ) 0 100 100 none none)).2.y =
        (Args.mk (0 : ℚ) 0 100 100 none none).y ∧
      (quadInit (Args.mk (0 : ℚ) 0 100 100 none none)).2.w =
        (Args.mk (0 : ℚ) 0 100 100 none none).w ∧
      (quadInit (Args.mk (0 : ℚ) 0 100 100 none none)).2.h =
        (Args.mk (0 : ℚ) 0 100 100 none none).h ∧
      (quadInit (Args.mk (0 : ℚ) 0 100 100 none none)).2 ≠
        Args.mk (0 : ℚ) 0 100 100 none none :=
  claim_C10 (Args.mk (0 : ℚ) 0 100 100 none none) (Or.inl rfl) (Or.inl rfl)

/-- Claim C5: for every tree built with maxDepth d (the tree's effective
maxDepth), after any sequence of inserts no Node exists at depth greater
than d, and a leaf at depth equal to d accumulates items beyond maxChildren
without ever subdividing. -/
theorem claim_C5 (args : Args) (L : List Item) (a b c d : ℚ) (mc : Nat)
    (L2 its : List Item) (hbig : mc < (L2 ++ its).length) :
    (∀ m ∈ ((quadInit args).1.insertList L).root.allNodes,
      m.depth ≤ orDefault args.maxDepth 4) ∧
    ((its.foldl Node.insert
        (Node.leaf a b c d (orDefault args.maxDepth 4) mc
          (orDefault args.maxDepth 4) L2)).isLeaf = true ∧
      (its.foldl Node.insert
        (Node.leaf a b c d (orDefault args.maxDepth 4) mc
          (orDefault args.maxDepth 4) L2)).items = L2 ++ its) := by
  refine ⟨?_, ?_, ?_⟩
  · intro m hm
    have hroot : (quadInit args).1.root =
        Node.leaf args.x args.y args.w args.h 0 (orDefault args.maxChildren 2)
          (orDefault args.maxDepth 4) [] := rfl
    simp only [QUAD.insertList, hroot] at hm
    have hok := foldl_insert_depthOk L
      (Node.leaf args.x args.y args.w args.h 0 (orDefault args.maxChildren 2)
        (orDefault args.maxDepth 4) []) (by simp [Node.depthOk])
    have hbound := depthOk_allNodes _ hok m hm
    obtain ⟨_, _, _, _, hmd⟩ := foldl_insert_box L
      (Node.leaf args.x args.y args.w args.h 0 (orDefault args.maxChildren 2)
        (orDefault args.maxDepth 4) [])
    rwa [hmd, maxDepth_leaf] at hbound
  · rw [foldl_insert_leaf_atcap its a b c d _ mc _ L2 (by omega)]
    simp
  · rw [foldl_insert_leaf_atcap its a b c d _ mc _ L2 (by omega)]
    simp

/-- Witness for claim C5 at concrete values: the default tree, and a
depth-4 leaf accumulating three items with maxChildren 2. -/
theorem claim_C5_witness :
    2 < (([] : List Item) ++
      [Item.mk 10 10 5 5, Item.mk 60 10 5 5, Item.mk 10 60 5 5]).length ∧
    ((∀ m ∈ ((quadInit (Args.mk (0 : ℚ) 0 100 100 none none)).1.insertList
        [Item.mk 10 10 5 5]).root.allNodes,
      m.depth ≤ orDefault (Args.mk (0 : ℚ) 0 100 100 none none).maxDepth 4) ∧
    (([Item.mk 10 10 5 5, Item.mk 60 10 5 5, Item.mk 10 60 5 5].foldl Node.insert
        (Node.leaf (0 : ℚ) 0 100 100
          (orDefault (Args.mk (0 : ℚ) 0 100 100 none none).maxDepth 4) 2
          (orDefault (Args.mk (0 : ℚ) 0 100 100 none none).maxDepth 4)
          [])).isLeaf = true ∧
      ([Item.mk 10 10 5 5, Item.mk 60 10 5 5, Item.mk 10 60 5 5].foldl Node.insert
        (Node.leaf (0 : ℚ) 0 100 100
          (orDefault (Args.mk (0 : ℚ) 0 100 100 none none).maxDepth 4) 2
          (orDefault (Args.mk (0 : ℚ) 0 100 100 none none).maxDepth 4)
          [])).items =
        [] ++ [Item.mk 10 10 5 5, Item.mk 60 10 5 5, Item.mk 10 60 5 5])) :=
  ⟨by norm_num,
    claim_C5 (Args.mk (0 : ℚ) 0 100 100 none none) [Item.mk 10 10 5 5]
      0 0 100 100 2 []
      [Item.mk 10 10 5 5, Item.mk 60 10 5 5, Item.mk 10 60 5 5] (by norm_num)⟩

/-- Claim C6: an item whose bounding box crosses a node's vertical or
horizontal midline (so findInsertNode classifies it PARENT) is held in that
node's own items after insert, and it remains there across any number of
further insertions of sibling items; when it is stored exactly once it is
visited at most once by any retrieve. -/
theorem claim_C6 (n : Node) (item : Item) (os : List Item) (q : Item)
    (hp : n.findInsertNode item = PARENT)
    (hnotin : item ∉ os)
    (hcount : ((n.flattenItems).count item) = 0) :
    item ∈ (os.foldl Node.insert (n.insert item)).items ∧
      ((os.foldl Node.insert (n.insert item)).flattenItems).count item = 1 ∧
      ((os.foldl Node.insert (n.insert item)).retrieveList q).count item ≤ 1 := by
  have hmem1 : item ∈ (n.insert item).items :=
    parent_insert_self_mem n.insertFuel n item hp
  have hp1 : (n.insert item).findInsertNode item = PARENT :=
    (findInsertNode_congr _ n item (insertF_x _ n item) (insertF_y _ n item)
      (insertF_w _ n item) (insertF_h _ n item)).trans hp
  obtain ⟨hmem2, _⟩ := foldl_insert_parent_retention os (n.insert item) item hp1 hmem1
  have hcnt1 : ((n.insert item).flattenItems).count item = 1 := by
    rw [count_insert, hcount]
    simp
  have hcnt2 : ((os.foldl Node.insert (n.insert item)).flattenItems).count item = 1 := by
    rw [foldl_insert_count_const os _ item hnotin]
    exact hcnt1
  exact ⟨hmem2, hcnt2,
    (count_retrieve_le_flatten _ q item).trans (le_of_eq hcnt2)⟩

/-- Witness for claim C6: a concrete subdivided empty tree, an item
straddling the vertical midline, and one further sibling insertion. -/
theorem claim_C6_witness :
    (Node.inner (0 : ℚ) 0 100 100 0 2 4 []
      (Node.leaf (0 : ℚ) 0 50 50 1 2 4 []) (Node.leaf (50 : ℚ) 0 50 50 1 2 4 [])
      (Node.leaf (0 : ℚ) 50 50 50 1 2 4 [])
      (Node.leaf (50 : ℚ) 50 50 50 1 2 4 [])).findInsertNode
        (Item.mk 45 10 20 5) = PARENT ∧
    Item.mk 45 10 20 5 ∉ [Item.mk 10 10 5 5] ∧
    (((Node.inner (0 : ℚ) 0 100 100 0 2 4 []
      (Node.leaf (0 : ℚ) 0 50 50 1 2 4 []) (Node.leaf (50 : ℚ) 0 50 50 1 2 4 [])
      (Node.leaf (0 : ℚ) 50 50 50 1 2 4 [])
      (Node.leaf (50 : ℚ) 50 50 50 1 2 4 [])).flattenItems).count
        (Item.mk 45 10 20 5)) = 0 ∧
    (Item.mk 45 10 20 5 ∈ ([Item.mk 10 10 5 5].foldl Node.insert
        ((Node.inner (0 : ℚ) 0 100 100 0 2 4 []
          (Node.leaf (0 : ℚ) 0 50 50 1 2 4 [])
          (Node.leaf (50 : ℚ) 0 50 50 1 2 4 [])
          (Node.leaf (0 : ℚ) 50 50 50 1 2 4 [])
          (Node.leaf (50 : ℚ) 50 50 50 1 2 4 [])).insert
            (Item.mk 45 10 20 5))).items ∧
      (([Item.mk 10 10 5 5].foldl Node.insert
        ((Node.inner (0 : ℚ) 0 100 100 0 2 4 []
          (Node.leaf (0 : ℚ) 0 50 50 1 2 4 [])
          (Node.leaf (50 : ℚ) 0 50 50 1 2 4 [])
          (Node.leaf (0 : ℚ) 50 50 50 1 2 4 [])
          (Node.leaf (50 : ℚ) 50 50 50 1 2 4 [])).insert
            (Item.mk 45 10 20 5))).flattenItems).count (Item.mk 45 10 20 5) = 1 ∧
      (([Item.mk 10 10 5 5].foldl Node.insert
        ((Node.inner (0 : ℚ) 0 100 100 0 2 4 []
          (Node.leaf (0 : ℚ) 0 50 50 1 2 4 [])
          (Node.leaf (50 : ℚ) 0 50 50 1 2 4 [])
          (Node.leaf (0 : ℚ) 50 50 50 1 2 4 [])
          (Node.leaf (50 : ℚ) 50 50 50 1 2 4 [])).insert
            (Item.mk 45 10 20 5))).retrieveList (Item.mk 0 0 100 100)).count
          (Item.mk 45 10 20 5) ≤ 1) :=
  ⟨by norm_num [Node.findInsertNode, TOP_LEFT, TOP_RIGHT, BOTTOM_LEFT,
      BOTTOM_RIGHT, PARENT],
    by norm_num [Item.mk.injEq],
    by norm_num [Node.flattenItems],
    claim_C6 _ _ _ _
      (by norm_num [Node.findInsertNode, TOP_LEFT, TOP_RIGHT, BOTTOM_LEFT,
        BOTTOM_RIGHT, PARENT])
      (by norm_num [Item.mk.injEq])
      (by norm_num [Node.flattenItems])⟩

/-- Claim C8: divide is only ever triggered on a leaf: when insert reaches a
node that already has children, a PARENT-classified item is appended to that
node's items with no threshold check, so an internal node's items sequence
can exceed maxChildren without any further subdivision of that node. -/
theorem claim_C8 (n : Node) (item : Item) (ps : List Item)
    (hinner : n.isLeaf = false)
    (hpar : n.findInsertNode item = PARENT)
    (hps : ∀ p ∈ ps, n.findInsertNode p = PARENT)
    (hbig : n.maxChildren < (n.items ++ ps).length) :
    n.insert item = n.withItems (n.items ++ [item]) ∧
      ps.foldl Node.insert n = n.withItems (n.items ++ ps) :=
  ⟨insertF_inner_parent n.insertFuel n item hinner hpar,
    foldl_insert_parent_eq ps n hinner hps⟩

/-- Witness for claim C8: a concrete subdivided empty tree and three
straddling items. -/
theorem claim_C8_witness :
    (Node.inner (0 : ℚ) 0 100 100 0 2 4 []
      (Node.leaf (0 : ℚ) 0 50 50 1 2 4 []) (Node.leaf (50 : ℚ) 0 50 50 1 2 4 [])
      (Node.leaf (0 : ℚ) 50 50 50 1 2 4 [])
      (Node.leaf (50 : ℚ) 50 50 50 1 2 4 [])).isLeaf = false ∧
    (Node.inner (0 : ℚ) 0 100 100 0 2 4 []
      (Node.leaf (0 : ℚ) 0 50 50 1 2 4 []) (Node.leaf (50 : ℚ) 0 50 50 1 2 4 [])
      (Node.leaf (0 : ℚ) 50 50 50 1 2 4 [])
      (Node.leaf (50 : ℚ) 50 50 50 1 2 4 [])).findInsertNode
        (Item.mk 45 10 20 5) = PARENT ∧
    (∀ p ∈ [Item.mk 40 40 20 20, Item.mk 40 40 20 20, Item.mk 40 40 20 20],
      (Node.inner (0 : ℚ) 0 100 100 0 2 4 []
        (Node.leaf (0 : ℚ) 0 50 50 1 2 4 [])
        (Node.leaf (50 : ℚ) 0 50 50 1 2 4 [])
        (Node.leaf (0 : ℚ) 50 50 50 1 2 4 [])
        (Node.leaf (50 : ℚ) 50 50 50 1 2 4 [])).findInsertNode p = PARENT) ∧
    ((Node.inner (0 : ℚ) 0 100 100 0 2 4 []
      (Node.leaf (0 : ℚ) 0 50 50 1 2 4 []) (Node.leaf (50 : ℚ) 0 50 50 1 2 4 [])
      (Node.leaf (0 : ℚ) 50 50 50 1 2 4 [])
      (Node.leaf (50 : ℚ) 50 50 50 1 2 4 [])).maxChildren <
      ((Node.inner (0 : ℚ) 0 100 100 0 2 4 []
        (Node.leaf (0 : ℚ) 0 50 50 1 2 4 [])
        (Node.leaf (50 : ℚ) 0 50 50 1 2 4 [])
        (Node.leaf (0 : ℚ) 50 50 50 1 2 4 [])
        (Node.leaf (50 : ℚ) 50 50 50 1 2 4 [])).items ++
        [Item.mk 40 40 20 20, Item.mk 40 40 20 20, Item.mk 40 40 20 20]).length) ∧
    ((Node.inner (0 : ℚ) 0 100 100 0 2 4 []
      (Node.leaf (0 : ℚ) 0 50 50 1 2 4 []) (Node.leaf (50 : ℚ) 0 50 50 1 2 4 [])
      (Node.leaf (0 : ℚ) 50 50 50 1 2 4 [])
      (Node.leaf (50 : ℚ) 50 50 50 1 2 4 [])).insert (Item.mk 45 10 20 5) =
      (Node.inner (0 : ℚ) 0 100 100 0 2 4 []
        (Node.leaf (0 : ℚ) 0 50 50 1 2 4 [])
        (Node.leaf (50 : ℚ) 0 50 50 1 2 4 [])
        (Node.leaf (0 : ℚ) 50 50 50 1 2 4 [])
        (Node.leaf (50 : ℚ) 50 50 50 1 2 4 [])).withItems
        ((Node.inner (0 : ℚ) 0 100 100 0 2 4 []
          (Node.leaf (0 : ℚ) 0 50 50 1 2 4 [])
          (Node.leaf (50 : ℚ) 0 50 50 1 2 4 [])
          (Node.leaf (0 : ℚ) 50 50 50 1 2 4 [])
          (Node.leaf (50 : ℚ) 50 50 50 1 2 4 [])).items ++
          [Item.mk 45 10 20 5]) ∧
      [Item.mk 40 40 20 20, Item.mk 40 40 20 20, Item.mk 40 40 20 20].foldl
        Node.insert
        (Node.inner (0 : ℚ) 0 100 100 0 2 4 []
          (Node.leaf (0 : ℚ) 0 50 50 1 2 4 [])
          (Node.leaf (50 : ℚ) 0 50 50 1 2 4 [])
          (Node.leaf (0 : ℚ) 50 50 50 1 2 4 [])
          (Node.leaf (50 : ℚ) 50 50 50 1 2 4 [])) =
        (Node.inner (0 : ℚ) 0 100 100 0 2 4 []
          (Node.leaf (0 : ℚ) 0 50 50 1 2 4 [])
          (Node.leaf (50 : ℚ) 0 50 50 1 2 4 [])
          (Node.leaf (0 : ℚ) 50 50 50 1 2 4 [])
          (Node.leaf (50 : ℚ) 50 50 50 1 2 4 [])).withItems
          ((Node.inner (0 : ℚ) 0 100 100 0 2 4 []
            (Node.leaf (0 : ℚ) 0 50 50 1 2 4 [])
            (Node.leaf (50 : ℚ) 0 50 50 1 2 4 [])
            (Node.leaf (0 : ℚ) 50 50 50 1 2 4 [])
            (Node.leaf (50 : ℚ) 50 50 50 1 2 4 [])).items ++
            [Item.mk 40 40 20 20, Item.mk 40 40 20 20, Item.mk 40 40 20 20])) :=
  ⟨rfl,
    by norm_num [Node.findInsertNode, TOP_LEFT, TOP_RIGHT, BOTTOM_LEFT,
      BOTTOM_RIGHT, PARENT],
    by norm_num [Node.findInsertNode, TOP_LEFT, TOP_RIGHT, BOTTOM_LEFT,
      BOTTOM_RIGHT, PARENT],
    by norm_num,
    claim_C8 _ _ _ rfl
      (by norm_num [Node.findInsertNode, TOP_LEFT, TOP_RIGHT, BOTTOM_LEFT,
        BOTTOM_RIGHT, PARENT])
      (by norm_num [Node.findInsertNode, TOP_LEFT, TOP_RIGHT, BOTTOM_LEFT,
        BOTTOM_RIGHT, PARENT])
      (by norm_num)⟩
